import Mathlib

/-!
Verification of the literature-search-builder core (src/src/App.tsx).

The TypeScript source is shallowly embedded below.  JavaScript strings are
modelled as Lean `String` / `List Char`; the JavaScript `RegExp` calls made by
the source (`safeRegExp`, `re.test`, the global `exec` loop) are given
semantics by a small backtracking regular-expression engine covering the
constructs the program compiles (literals, escapes, character classes,
word boundaries, alternation, grouping and the usual quantifiers, with the
ECMAScript rule that a quantifier never accepts an empty iteration).
JavaScript objects and `Map`s are modelled as insertion-ordered association
lists where assigning an existing key updates it in place.
-/

namespace LitSearch

/-! ## Character sets (JavaScript `\w`, `\s`, `\d`, line terminators) -/

/-- JavaScript word character, the set matched by `\w` and used by `\b`. -/
def isWordChar (c : Char) : Bool :=
  ('a' ≤ c && c ≤ 'z') || ('A' ≤ c && c ≤ 'Z') || ('0' ≤ c && c ≤ '9') || c = '_'

/-- JavaScript whitespace as matched by `\s` and trimmed by `String.trim`. -/
def jsSpace (c : Char) : Bool :=
  c = ' ' || c = '\t' || c = '\n' || c = '\x0b' || c = '\x0c' || c = '\r' ||
  c = '\u00A0' || c = '\u1680' || ('\u2000' ≤ c && c ≤ '\u200A') ||
  c = '\u2028' || c = '\u2029' || c = '\u202F' || c = '\u205F' ||
  c = '\u3000' || c = '\uFEFF'


/-- JavaScript digit, the set matched by `\d`. -/
def isDigitChar (c : Char) : Bool := '0' ≤ c && c ≤ '9'

/-- JavaScript line terminators (not matched by `.`). -/
def lineTerm (c : Char) : Bool :=
  c = '\n' || c = '\r' || c = '\u2028' || c = '\u2029'

/-- Model of `String.prototype.trim` on character lists. -/
def trimChars (l : List Char) : List Char :=
  ((l.dropWhile jsSpace).reverse.dropWhile jsSpace).reverse

/-- Model of `String.prototype.trim`. -/
def jsTrim (s : String) : String := ⟨trimChars s.data⟩

/-! ## Insertion-ordered association lists (JavaScript objects / Maps) -/

/-- Lookup in an insertion-ordered association list. -/
def alGet {α : Type} : List (String × α) → String → Option α
  | [], _ => none
  | p :: rest, k => if p.1 = k then some p.2 else alGet rest k

/-- Lookup with a default. -/
def alGetD {α : Type} (m : List (String × α)) (k : String) (d : α) : α :=
  (alGet m k).getD d

/-- Assignment: updates an existing key in place, else appends (JavaScript
object / Map insertion-order semantics). -/
def alSet {α : Type} : List (String × α) → String → α → List (String × α)
  | [], k, v => [(k, v)]
  | (k', v') :: rest, k, v =>
    if k' = k then (k, v) :: rest else (k', v') :: alSet rest k v

/-- Key list of an association list. -/
def alKeys {α : Type} (m : List (String × α)) : List String := m.map (·.1)

/-- Insert an empty-ish default only when the key is absent (JavaScript
`m[k] ||= d` on a fresh key). -/
def alEnsure {α : Type} (m : List (String × α)) (k : String) (d : α) :
    List (String × α) :=
  if (alGet m k).isSome then m else m ++ [(k, d)]

/-! ## Regular-expression abstract syntax -/

/-- One item of a bracket character class. -/
inductive CItem where
  | ch (c : Char)
  | range (a b : Char)
  | metaW | metaNW | metaS | metaNS | metaD | metaND
deriving DecidableEq, Repr

/-- Regular-expression abstract syntax for the constructs the program uses. -/
inductive RAst where
  | eps
  | ch (c : Char)
  | cls (neg : Bool) (items : List CItem)
  | dot
  | wordB | nonWordB
  | lineStart | lineEnd
  | seq (a b : RAst)
  | alt (a b : RAst)
  | star (lz : Bool) (a : RAst)
  | plus (lz : Bool) (a : RAst)
  | opt (lz : Bool) (a : RAst)
deriving DecidableEq, Repr

/-- Case-insensitive character comparison (the `i` flag). -/
def eqCi (ci : Bool) (a b : Char) : Bool :=
  if ci then a.toLower = b.toLower else a = b

/-- Does a class item accept character `c`? -/
def cItemMatch (ci : Bool) (it : CItem) (c : Char) : Bool :=
  match it with
  | .ch c' => eqCi ci c' c
  | .range a b =>
    (a ≤ c && c ≤ b) ||
      (ci && ((a ≤ c.toLower && c.toLower ≤ b) || (a ≤ c.toUpper && c.toUpper ≤ b)))
  | .metaW => isWordChar c
  | .metaNW => !isWordChar c
  | .metaS => jsSpace c
  | .metaNS => !jsSpace c
  | .metaD => isDigitChar c
  | .metaND => !isDigitChar c

/-- Does a (possibly negated) class accept character `c`? -/
def clsMatch (ci neg : Bool) (items : List CItem) (c : Char) : Bool :=
  let m := items.any (fun it => cItemMatch ci it c)
  if neg then !m else m

/-- Is position `i` of the text a `\b` word boundary? -/
def isBoundary (l : List Char) (i : Nat) : Bool :=
  let before := match i with
    | 0 => false
    | k + 1 => match l[k]? with | some c => isWordChar c | none => false
  let after := match l[i]? with | some c => isWordChar c | none => false
  before != after

/-- Greedy/lazy iteration of a quantifier body `f`, returning candidate end
positions in backtracking-preference order.  Following ECMAScript, an
iteration that consumes nothing is not allowed to repeat (`filter (i < ·)`). -/
def starLoop (f : Nat → List Nat) (lz : Bool) : Nat → Nat → List Nat
  | 0, i => [i]
  | fuel + 1, i =>
    let nxt := ((f i).filter (fun j => i < j)).flatMap (starLoop f lz fuel)
    if lz then i :: nxt else nxt ++ [i]

/-- Backtracking matcher: all candidate end positions (preference order
first) of a match of `r` starting at position `i` of text `l`. -/
def mEnds (l : List Char) (ci : Bool) : RAst → Nat → List Nat
  | .eps => fun i => [i]
  | .ch c => fun i =>
    match l[i]? with
    | some c' => if eqCi ci c c' then [i + 1] else []
    | none => []
  | .cls neg items => fun i =>
    match l[i]? with
    | some c' => if clsMatch ci neg items c' then [i + 1] else []
    | none => []
  | .dot => fun i =>
    match l[i]? with
    | some c' => if lineTerm c' then [] else [i + 1]
    | none => []
  | .wordB => fun i => if isBoundary l i then [i] else []
  | .nonWordB => fun i => if isBoundary l i then [] else [i]
  | .lineStart => fun i => if i = 0 then [i] else []
  | .lineEnd => fun i => if i = l.length then [i] else []
  | .seq a b =>
    let fa := mEnds l ci a
    let fb := mEnds l ci b
    fun i => (fa i).flatMap fb
  | .alt a b =>
    let fa := mEnds l ci a
    let fb := mEnds l ci b
    fun i => fa i ++ fb i
  | .star lz a =>
    let fa := mEnds l ci a
    fun i => starLoop fa lz (l.length + 1) i
  | .plus lz a =>
    let fa := mEnds l ci a
    fun i => (fa i).flatMap (starLoop fa lz (l.length + 1))
  | .opt lz a =>
    let fa := mEnds l ci a
    fun i => if lz then i :: fa i else fa i ++ [i]

/-- A compiled pattern: syntax plus the case-insensitivity flag. -/
structure CompiledRe where
  ast : RAst
  ci : Bool
deriving DecidableEq, Repr

/-- `RegExp.prototype.test`: is there a match starting anywhere? -/
def reTest (l : List Char) (re : CompiledRe) : Bool :=
  (List.range (l.length + 1)).any (fun i => !(mEnds l re.ci re.ast i).isEmpty)

/-- `RegExp.prototype.test` on a string. -/
def reTestStr (re : CompiledRe) (s : String) : Bool := reTest s.data re

/-- Leftmost match at or after position `p`: start and (preferred) end. -/
def firstMatchFrom (l : List Char) (re : CompiledRe) (p : Nat) :
    Option (Nat × Nat) :=
  (List.range' p (l.length + 1 - p)).findSome?
    (fun i => (mEnds l re.ci re.ast i).head?.map (fun e => (i, e)))

/-- The global `exec` loop: successive leftmost matches, force-advancing by
one after a zero-width match (the `rx.lastIndex++` guard in the source). -/
def execLoop (l : List Char) (re : CompiledRe) : Nat → Nat → List (Nat × Nat)
  | 0, _ => []
  | fuel + 1, p =>
    match firstMatchFrom l re p with
    | none => []
    | some (i, e) => (i, e) :: execLoop l re fuel (if e = i then e + 1 else e)

/-- All matches of `re` over `l` in document order. -/
def execAll (l : List Char) (re : CompiledRe) : List (Nat × Nat) :=
  execLoop l re (l.length + 2) 0

/-! ## Regular-expression pattern parser (model of `new RegExp(source)`) -/

/-- Hexadecimal digit value, if any. -/
def hexVal (c : Char) : Option Nat :=
  if isDigitChar c then some (c.toNat - 48)
  else
    let lc := c.toLower
    if 'a' ≤ lc && lc ≤ 'f' then some (lc.toNat - 87) else none

/-- Single-character escape outside a class (`\w`, `\b`, `\.`, ...).
Backreference digits are unsupported and make compilation fail (which the
source then handles through `safeRegExp`). -/
def escAst (c : Char) : Option RAst :=
  if c = 'w' then some (.cls false [.metaW])
  else if c = 'W' then some (.cls true [.metaW])
  else if c = 's' then some (.cls false [.metaS])
  else if c = 'S' then some (.cls true [.metaS])
  else if c = 'd' then some (.cls false [.metaD])
  else if c = 'D' then some (.cls true [.metaD])
  else if c = 'b' then some .wordB
  else if c = 'B' then some .nonWordB
  else if c = 'n' then some (.ch '\n')
  else if c = 't' then some (.ch '\t')
  else if c = 'r' then some (.ch '\r')
  else if c = 'f' then some (.ch '\x0c')
  else if c = 'v' then some (.ch '\x0b')
  else if c = '0' then some (.ch '\x00')
  else if '1' ≤ c && c ≤ '9' then none
  else some (.ch c)

/-- Single-character escape inside a bracket class (`\b` is backspace there). -/
def escCls (c : Char) : Option CItem :=
  if c = 'w' then some .metaW
  else if c = 'W' then some .metaNW
  else if c = 's' then some .metaS
  else if c = 'S' then some .metaNS
  else if c = 'd' then some .metaD
  else if c = 'D' then some .metaND
  else if c = 'b' then some (.ch '\x08')
  else if c = 'n' then some (.ch '\n')
  else if c = 't' then some (.ch '\t')
  else if c = 'r' then some (.ch '\r')
  else if c = 'f' then some (.ch '\x0c')
  else if c = 'v' then some (.ch '\x0b')
  else if c = '0' then some (.ch '\x00')
  else if '1' ≤ c && c ≤ '9' then none
  else some (.ch c)

/-- One atom of a bracket class (single character or meta escape). -/
def pClassAtom : List Char → Option (CItem × List Char)
  | '\\' :: 'x' :: h1 :: h2 :: rest =>
    match hexVal h1, hexVal h2 with
    | some a, some b => some (.ch (Char.ofNat (16 * a + b)), rest)
    | _, _ => some (.ch 'x', h1 :: h2 :: rest)
  | '\\' :: 'u' :: h1 :: h2 :: h3 :: h4 :: rest =>
    match hexVal h1, hexVal h2, hexVal h3, hexVal h4 with
    | some a, some b, some c, some d =>
      some (.ch (Char.ofNat (a * 4096 + b * 256 + c * 16 + d)), rest)
    | _, _, _, _ => some (.ch 'u', h1 :: h2 :: h3 :: h4 :: rest)
  | '\\' :: c :: rest => (escCls c).map (fun it => (it, rest))
  | '\\' :: [] => none
  | c :: rest => some (.ch c, rest)
  | [] => none

/-- Items of a bracket class up to the closing `]`, resolving `a-b` ranges
(with the Annex-B rule that a dash adjacent to a meta escape or to `]` is a
literal). -/
def pClassItems : Nat → List Char → List CItem → Option (List CItem × List Char)
  | 0, _, _ => none
  | _ + 1, [], _ => none
  | _ + 1, ']' :: rest, acc => some (acc, rest)
  | fuel + 1, cs, acc =>
    match pClassAtom cs with
    | none => none
    | some (it1, rest1) =>
      match rest1 with
      | '-' :: ']' :: rest2 => some (acc ++ [it1, .ch '-'], rest2)
      | '-' :: rest2 =>
        match pClassAtom rest2 with
        | none => none
        | some (it2, rest3) =>
          match it1, it2 with
          | .ch a, .ch b =>
            if a ≤ b then pClassItems fuel rest3 (acc ++ [.range a b]) else none
          | _, _ => pClassItems fuel rest3 (acc ++ [it1, .ch '-', it2])
      | _ => pClassItems fuel rest1 (acc ++ [it1])

/-- A whole bracket class, after the opening `[`. -/
def pClass (cs : List Char) : Option (Bool × List CItem × List Char) :=
  match cs with
  | '^' :: rest =>
    (pClassItems (rest.length + 1) rest []).map (fun p => (true, p.1, p.2))
  | _ =>
    (pClassItems (cs.length + 1) cs []).map (fun p => (false, p.1, p.2))

/-- Decimal number parse used by brace quantifiers. -/
def digitsVal (l : List Char) : Nat :=
  l.foldl (fun acc c => 10 * acc + (c.toNat - 48)) 0

/-- Parse a `\x7bm\x7d` / `\x7bm,\x7d` / `\x7bm,n\x7d` quantifier body after
the opening brace; `none` when the braces are not a valid quantifier. -/
def parseBrace (cs : List Char) : Option (Nat × Option Nat × List Char) :=
  let ds := cs.takeWhile isDigitChar
  if ds = [] then none else
  let m := digitsVal ds
  match cs.drop ds.length with
  | '\x7d' :: rest => some (m, some m, rest)
  | ',' :: '\x7d' :: rest => some (m, none, rest)
  | ',' :: cs2 =>
    let ds2 := cs2.takeWhile isDigitChar
    if ds2 = [] then none else
    let n := digitsVal ds2
    match cs2.drop ds2.length with
    | '\x7d' :: rest => if m ≤ n then some (m, some n, rest) else none
    | _ => none
  | _ => none

/-- Fold a list of factors into nested `seq`. -/
def seqList (l : List RAst) : RAst := l.foldr .seq .eps

/-- Expand a brace quantifier into required copies plus options or a star. -/
def repeatAst (lz : Bool) (a : RAst) (m : Nat) : Option Nat → RAst
  | some n => seqList (List.replicate m a ++ List.replicate (n - m) (.opt lz a))
  | none => seqList (List.replicate m a ++ [.star lz a])

/-- Attach an optional quantifier (with optional laziness marker) to an atom. -/
def applyQuant (a : RAst) : List Char → Option (RAst × List Char)
  | '*' :: '?' :: r => some (.star true a, r)
  | '*' :: r => some (.star false a, r)
  | '+' :: '?' :: r => some (.plus true a, r)
  | '+' :: r => some (.plus false a, r)
  | '?' :: '?' :: r => some (.opt true a, r)
  | '?' :: r => some (.opt false a, r)
  | '\x7b' :: r =>
    match parseBrace r with
    | some (m, bound, r2) =>
      match r2 with
      | '?' :: r3 => some (repeatAst true a m bound, r3)
      | _ => some (repeatAst false a m bound, r2)
    | none => some (a, '\x7b' :: r)
  | r => some (a, r)

/-- Nonterminal selector for the recursive-descent pattern parser. -/
inductive PKind where
  | alt | sequence | item

/-- Recursive-descent parser for the pattern grammar (alternation over
sequences of quantified atoms, parenthesised groups, classes, escapes). -/
def pRun : Nat → PKind → List Char → Option (RAst × List Char)
  | 0, _, _ => none
  | fuel + 1, .alt, cs =>
    match pRun fuel .sequence cs with
    | none => none
    | some (a, rest) =>
      match rest with
      | '|' :: r2 =>
        match pRun fuel .alt r2 with
        | some (b, r3) => some (.alt a b, r3)
        | none => none
      | _ => some (a, rest)
  | fuel + 1, .sequence, cs =>
    match cs with
    | [] => some (.eps, [])
    | ')' :: _ => some (.eps, cs)
    | '|' :: _ => some (.eps, cs)
    | _ =>
      match pRun fuel .item cs with
      | none => none
      | some (a, rest) =>
        match pRun fuel .sequence rest with
        | some (b, r2) => some (.seq a b, r2)
        | none => none
  | fuel + 1, .item, cs =>
    match cs with
    | [] => none
    | '(' :: '?' :: ':' :: r =>
      match pRun fuel .alt r with
      | some (a, ')' :: r2) => applyQuant a r2
      | _ => none
    | '(' :: '?' :: _ => none
    | '(' :: r =>
      match pRun fuel .alt r with
      | some (a, ')' :: r2) => applyQuant a r2
      | _ => none
    | '[' :: rest =>
      match pClass rest with
      | some (neg, items, r2) => applyQuant (.cls neg items) r2
      | none => none
    | '\\' :: 'x' :: h1 :: h2 :: rest =>
      match hexVal h1, hexVal h2 with
      | some a, some b => applyQuant (.ch (Char.ofNat (16 * a + b))) rest
      | _, _ => applyQuant (.ch 'x') (h1 :: h2 :: rest)
    | '\\' :: 'u' :: h1 :: h2 :: h3 :: h4 :: rest =>
      match hexVal h1, hexVal h2, hexVal h3, hexVal h4 with
      | some a, some b, some c, some d =>
        applyQuant (.ch (Char.ofNat (a * 4096 + b * 256 + c * 16 + d))) rest
      | _, _, _, _ => applyQuant (.ch 'u') (h1 :: h2 :: h3 :: h4 :: rest)
    | '\\' :: c :: rest =>
      match escAst c with
      | some a => applyQuant a rest
      | none => none
    | '\\' :: [] => none
    | '.' :: rest => applyQuant .dot rest
    | '^' :: rest => applyQuant .lineStart rest
    | '$' :: rest => applyQuant .lineEnd rest
    | '*' :: _ => none
    | '+' :: _ => none
    | '?' :: _ => none
    | ')' :: _ => none
    | '|' :: _ => none
    | c :: rest => applyQuant (.ch c) rest

/-- Compile a pattern source string to syntax; `none` models a thrown
`SyntaxError` from the `RegExp` constructor. -/
def parseRegex (s : String) : Option RAst :=
  match pRun (3 * s.length + 8) .alt s.data with
  | some (a, []) => some a
  | _ => none

/-! ## PatternCompiler (safeRegExp, hasRegexMeta, escExceptStar,
toSmartWordPattern) -/

/-- Characters escaped by `safeRegExp`'s fallback replacement
`/[.*+?^$\x7b\x7d()|[\]\\]/g`. -/
def escAllChars : List Char :=
  ['.', '*', '+', '?', '^', '$', '\x7b', '\x7d', '(', ')', '|', '[', ']', '\\']

/-- The fallback escape of `safeRegExp`: every metacharacter (including `*`)
gets a backslash. -/
def escapeAllMeta (s : String) : String :=
  ⟨s.data.flatMap (fun c => if c ∈ escAllChars then ['\\', c] else [c])⟩

/-- A pattern denoting the literal text `s`. -/
def literalAst (s : String) : RAst :=
  s.data.foldr (fun c a => RAst.seq (.ch c) a) .eps

/-- `safeRegExp`: compile the pattern, and on a syntax error escape it and
compile the escaped text as a literal pattern instead. -/
def safeRegExp (pattern : String) (ci : Bool) : CompiledRe :=
  match parseRegex pattern with
  | some a => ⟨a, ci⟩
  | none =>
    match parseRegex (escapeAllMeta pattern) with
    | some a => ⟨a, ci⟩
    | none => ⟨literalAst pattern, ci⟩

/-- Characters tested by `hasRegexMeta` (`/[\\.^$|()[\]?+\x7b\x7d]/`); note
that `*` is not among them. -/
def metaProbeChars : List Char :=
  ['\\', '.', '^', '$', '|', '(', ')', '[', ']', '?', '+', '\x7b', '\x7d']

/-- `hasRegexMeta`: does the term contain a probed metacharacter? -/
def hasRegexMeta (s : String) : Bool :=
  s.data.any (fun c => c ∈ metaProbeChars)

/-- Characters escaped by `escExceptStar`
(`/[.+?^$\x7b\x7d()|[\]\\]/g`); `*` is deliberately left unescaped. -/
def escExceptStarChars : List Char :=
  ['.', '+', '?', '^', '$', '\x7b', '\x7d', '(', ')', '|', '[', ']', '\\']

/-- `escExceptStar`: escape every metacharacter except `*`. -/
def escExceptStar (s : String) : String :=
  ⟨s.data.flatMap (fun c => if c ∈ escExceptStarChars then ['\\', c] else [c])⟩

/-- `toSmartWordPattern`: trims the term; a regex-flagged term with a probed
metacharacter is used verbatim; a trailing `*` becomes a left-bounded stem
pattern; otherwise the term is word-bounded on both sides. -/
def toSmartWordPattern (term : String) (isRegex : Bool) : String :=
  let t := jsTrim term
  if isRegex && hasRegexMeta t then t
  else if t.data.getLast? = some '*' then
    "\\b" ++ escExceptStar ⟨t.data.dropLast⟩ ++ "[\\w-]*"
  else
    "\\b" ++ escExceptStar t ++ "\\b"

/-! ## Data model (Block, QueryConfig) -/

/-- Inter-block operator. -/
inductive Operator where
  | AND | OR
deriving DecidableEq, Repr

/-- One named term group.  (`id` is an opaque token produced by `uid()` in
the source; it never influences matching, so it is kept as an ordinary
string.) -/
structure Block where
  id : String
  name : String
  terms : List String
  isRegex : Bool
  exclude : Bool
deriving DecidableEq, Repr

/-- The field-selection flags. -/
structure SearchFields where
  title : Bool
  abstract : Bool
  keywords : Bool
deriving DecidableEq, Repr

/-- The full query configuration. -/
structure QueryConfig where
  blocks : List Block
  operators : List Operator
  caseInsensitive : Bool
  searchFields : SearchFields
deriving DecidableEq, Repr

/-! ## Evaluator (evaluateQueryOnText) -/

/-- One compiled block: original index, display name, the block, its
non-empty terms and one compiled pattern per term. -/
structure CompiledBlock where
  index : Nat
  name : String
  block : Block
  terms : List String
  regexes : List CompiledRe
deriving DecidableEq, Repr

/-- The display name `b.name || `Block ${'{'}idx + 1{'}'}` `. -/
def displayName (b : Block) (idx : Nat) : String :=
  if b.name = "" then "Block " ++ toString (idx + 1) else b.name

/-- Compilation pass of `evaluateQueryOnText`: drop blocks with no non-empty
term, compile one pattern per surviving term. -/
def compileBlocks (cfg : QueryConfig) : List CompiledBlock :=
  cfg.blocks.enum.filterMap (fun p =>
    let idx := p.1
    let b := p.2
    let terms := b.terms.filter (fun t => (jsTrim t).length > 0)
    if terms = [] then none
    else
      some ⟨idx, displayName b idx, b, terms,
        terms.map (fun t => safeRegExp (toSmartWordPattern t b.isRegex) cfg.caseInsensitive)⟩)

/-- The three field texts of a record as the evaluator sees them. -/
structure FieldTexts where
  title : String
  abstract : String
  keywords : String
deriving DecidableEq, Repr

/-- Per-field hit lists of one block; a field key is present (`some`) only
when at least one term hit there. -/
structure FieldHits where
  title : Option (List String)
  abstract : Option (List String)
  keywords : Option (List String)
deriving DecidableEq, Repr

/-- The terms of a compiled block that hit one field text. -/
def hitsFor (cb : CompiledBlock) (t : String) : List String :=
  ((cb.regexes.zip cb.terms).filter (fun p => reTestStr p.1 t)).map (·.2)

/-- One field inside `blockHitAtLeastOne`: skipped when the (selection
-masked) text is empty, recorded only when some term hit. -/
def fieldHitList (cb : CompiledBlock) (t : String) : Option (List String) :=
  if t = "" then none
  else
    let h := hitsFor cb t
    if h = [] then none else some h

/-- The per-field hit record of one compiled block against the three
(selection-masked) field texts. -/
def blockHit (cb : CompiledBlock) (tx : FieldTexts) : FieldHits :=
  ⟨fieldHitList cb tx.title, fieldHitList cb tx.abstract, fieldHitList cb tx.keywords⟩

/-- Did the block fire (the `any` flag of `blockHitAtLeastOne`)? -/
def firedHits (fh : FieldHits) : Bool :=
  fh.title.isSome || fh.abstract.isSome || fh.keywords.isSome

/-- Result shape of the matcher returned by `evaluateQueryOnText`. -/
structure EvalResult where
  ok : Bool
  matchedBlocks : List String
  detailed : List (String × FieldHits)
deriving DecidableEq, Repr

/-- Apply one boolean operator, left argument first. -/
def applyOp (op : Operator) (a b : Bool) : Bool :=
  match op with
  | .AND => a && b
  | .OR => a || b

/-- The `for` loop of the matcher: runs while both an operator and a next
compiled block remain, updating the running value, `matchedBlocks` and
`detailed` exactly as the source does. -/
def evalLoop (tx : FieldTexts) :
    List Operator → List CompiledBlock → Bool → List String →
    List (String × FieldHits) → EvalResult
  | [], _, val, mbs, det => ⟨val, mbs, det⟩
  | _ :: _, [], val, mbs, det => ⟨val, mbs, det⟩
  | op :: ops, c :: cs, val, mbs, det =>
    let fh := blockHit c tx
    let hit := firedHits fh
    let det' := if hit && !c.block.exclude then alSet det c.name fh else det
    let rhs := if c.block.exclude then !hit else hit
    let val' := applyOp op val rhs
    let mbs' := if !c.block.exclude && hit then mbs ++ [c.name] else mbs
    evalLoop tx ops cs val' mbs' det'

/-- The matcher closure returned by `evaluateQueryOnText`, applied to one
record's field texts and the selection flags. -/
def matchesByFields (compiled : List CompiledBlock) (ops : List Operator)
    (fields : FieldTexts) (selected : SearchFields) : EvalResult :=
  let tx : FieldTexts :=
    ⟨if selected.title then fields.title else "",
      if selected.abstract then fields.abstract else "",
      if selected.keywords then fields.keywords else ""⟩
  match compiled with
  | [] => ⟨true, [], []⟩
  | c0 :: rest =>
    let fh0 := blockHit c0 tx
    let hit0 := firedHits fh0
    let det0 := if hit0 && !c0.block.exclude then alSet [] c0.name fh0 else []
    let val0 := if c0.block.exclude then !hit0 else hit0
    let mbs0 := if !c0.block.exclude && hit0 then [c0.name] else []
    evalLoop tx ops rest val0 mbs0 det0

/-- `evaluateQueryOnText` (its `_text` argument is unused in the source). -/
def evaluateQueryOnText (_text : String) (cfg : QueryConfig)
    (fields : FieldTexts) (selected : SearchFields) : EvalResult :=
  matchesByFields (compileBlocks cfg) cfg.operators fields selected

/-! ## EntryParser (parseBibtexEntries) -/

/-- A parsed bibliographic record.  In the source each record is one
JavaScript object `{ entry_type, citekey, ...fields, __raw }`; here the
pieces are kept apart and `eProp` reproduces the merged-object lookup. -/
structure BibEntry where
  entryType : String
  citeKey : String
  fields : List (String × String)
  raw : String
deriving DecidableEq, Repr

/-- Property lookup on the merged record object (field keys shadow the
`entry_type`/`citekey` slots because the spread comes after them, and
`__raw` is assigned last). -/
def eProp (e : BibEntry) (k : String) : Option String :=
  if k = "__raw" then some e.raw
  else
    match alGet e.fields k with
    | some v => some v
    | none =>
      if k = "entry_type" then some e.entryType
      else if k = "citekey" then some e.citeKey
      else none

/-- Property lookup defaulting to the empty string (`e.x || ""`). -/
def ePropS (e : BibEntry) (k : String) : String := (eProp e k).getD ""

/-- First occurrence of `c` in `l` at or after index `i`. -/
def indexOfFrom (l : List Char) (c : Char) (i : Nat) : Option Nat :=
  ((l.drop i).findIdx? (· == c)).map (i + ·)

/-- Match the chunk header `@(\w+)\s*\x7b\s*` at index `pos`; returns the
entry type and the index just past the match. -/
def matchHeader (l : List Char) (pos : Nat) : Option (String × Nat) :=
  match l.drop pos with
  | '@' :: rest =>
    let word := rest.takeWhile isWordChar
    if word = [] then none
    else
      let r2 := rest.drop word.length
      let ws1 := r2.takeWhile jsSpace
      match r2.drop ws1.length with
      | '\x7b' :: r3 =>
        let ws2 := r3.takeWhile jsSpace
        some (⟨word⟩, pos + 1 + word.length + ws1.length + 1 + ws2.length)
      | _ => none
  | _ => none

/-- The brace-depth / in-quote scan that finds the end of a chunk: starts at
depth 1, toggles the quote flag on an unescaped `"` seen at depth 1, and
stops just past the brace that returns the depth to 0 (or at end of input). -/
def chunkEndGo (l : List Char) : Nat → Nat → Nat → Bool → Nat
  | 0, j, _, _ => j
  | fuel + 1, j, depth, inQ =>
    match l[j]? with
    | none => j
    | some ch =>
      let prevBS : Bool := match j with
        | 0 => false
        | k + 1 => l[k]? = some '\\'
      if ch = '"' && !prevBS && depth = 1 then
        chunkEndGo l fuel (j + 1) depth (!inQ)
      else if !inQ && ch = '\x7b' then
        chunkEndGo l fuel (j + 1) (depth + 1) inQ
      else if !inQ && ch = '\x7d' then
        if depth = 1 then j + 1
        else chunkEndGo l fuel (j + 1) (depth - 1) inQ
      else chunkEndGo l fuel (j + 1) depth inQ

/-- The citation-key regex `^@\w+\s*\x7b\s*([^,]+)\s*,` (with greedy
backtracking semantics for the `\s*([^,]+)` prefix), applied to a chunk. -/
def citeKeyOf (chunk : List Char) : Option String :=
  match chunk with
  | '@' :: rest =>
    let word := rest.takeWhile isWordChar
    if word = [] then none
    else
      let r2 := rest.drop word.length
      let ws1 := r2.takeWhile jsSpace
      match r2.drop ws1.length with
      | '\x7b' :: r3 =>
        match r3.findIdx? (· == ',') with
        | none => none
        | some k =>
          if k = 0 then none
          else
            let seg := r3.take k
            let wsp := seg.takeWhile jsSpace
            let key :=
              if wsp.length = seg.length then seg.drop (seg.length - 1)
              else seg.drop wsp.length
            some ⟨key⟩
      | _ => none
  | _ => none

/-- Scan of a double-quoted field value `"(?:\\.|[^"\\])*"` after the
opening quote; returns the number of characters consumed including the
closing quote. -/
def quotedScan : List Char → Option Nat
  | [] => none
  | '"' :: _ => some 1
  | '\\' :: _ :: rest => (quotedScan rest).map (· + 2)
  | '\\' :: [] => none
  | _ :: rest => (quotedScan rest).map (· + 1)

/-- Scan of a brace-delimited field value
`\x7b(?:\\.|[^\x7b\x7d]|\x7b[^\x7b\x7d]*\x7d)*\x7d` after the opening
brace, with the backtracking rule that a backslash may also stand for
itself; returns the number of characters consumed including the closing
brace. -/
def bracedScan : Nat → List Char → Option Nat
  | 0, _ => none
  | _ + 1, [] => none
  | _ + 1, '\x7d' :: _ => some 1
  | fuel + 1, '\\' :: c :: rest =>
    (match bracedScan fuel rest with
     | some n => some (n + 2)
     | none => (bracedScan fuel (c :: rest)).map (· + 1))
  | _ + 1, '\\' :: [] => none
  | fuel + 1, '\x7b' :: rest =>
    let inner := rest.takeWhile (fun c => c ≠ '\x7b' && c ≠ '\x7d')
    (match rest.drop inner.length with
     | '\x7d' :: rest2 => (bracedScan fuel rest2).map (· + inner.length + 2)
     | _ => none)
  | fuel + 1, _ :: rest => (bracedScan fuel rest).map (· + 1)

/-- Attempt a `(\w+)\s*=\s*(value)\s*,?` field match starting exactly at the
head of `cs`; returns key, raw value (with delimiters) and the rest. -/
def matchFieldAt (cs : List Char) : Option (List Char × List Char × List Char) :=
  let key := cs.takeWhile isWordChar
  if key = [] then none
  else
    let r1 := cs.drop key.length
    let ws1 := r1.takeWhile jsSpace
    match r1.drop ws1.length with
    | '=' :: r2 =>
      let ws2 := r2.takeWhile jsSpace
      let v := r2.drop ws2.length
      let scanned : Option (List Char × List Char) :=
        match v with
        | '"' :: vr =>
          (quotedScan vr).map (fun n => ('"' :: vr.take n, vr.drop n))
        | '\x7b' :: vr =>
          (bracedScan (vr.length + 1) vr).map
            (fun n => ('\x7b' :: vr.take n, vr.drop n))
        | _ => none
      match scanned with
      | none => none
      | some (vRaw, rest) =>
        let ws3 := rest.takeWhile jsSpace
        let rest2 := rest.drop ws3.length
        let rest3 := match rest2 with
          | ',' :: r => r
          | r => r
        some (key, vRaw, rest3)
    | _ => none

/-- Post-process one field: lower-case the key, trim the raw value, strip
exactly one layer of enclosing braces or quotes. -/
def cleanField (key vRaw : List Char) : String × String :=
  let d := trimChars vRaw
  let stripped :=
    match d.head?, d.getLast? with
    | some '\x7b', some '\x7d' => (d.drop 1).dropLast
    | some '"', some '"' => (d.drop 1).dropLast
    | _, _ => d
  (⟨key.map Char.toLower⟩, ⟨stripped⟩)

/-- The global `fieldRe.exec` loop over a chunk: successive leftmost field
matches, with object-assignment update semantics for repeated keys. -/
def fieldScan : Nat → List Char → List (String × String) → List (String × String)
  | 0, _, acc => acc
  | _ + 1, [], acc => acc
  | fuel + 1, cs, acc =>
    match matchFieldAt cs with
    | some (key, vRaw, rest) =>
      let kv := cleanField key vRaw
      fieldScan fuel rest (alSet acc kv.1 kv.2)
    | none =>
      match cs with
      | [] => acc
      | _ :: tail => fieldScan fuel tail acc

/-- The main scanning loop of `parseBibtexEntries`: locate each `@`, try the
header, skip one character on failure, otherwise cut the chunk, require a
citation key, and extract the fields. -/
def extractGo (l : List Char) : Nat → Nat → List BibEntry → List BibEntry
  | 0, _, acc => acc
  | fuel + 1, i, acc =>
    match indexOfFrom l '@' i with
    | none => acc
    | some a0 =>
      match matchHeader l a0 with
      | none => extractGo l fuel (a0 + 1) acc
      | some (ty, j0) =>
        let j := chunkEndGo l (l.length + 1) j0 1 false
        let chunk := trimChars ((l.drop a0).take (j - a0))
        match citeKeyOf chunk with
        | none => extractGo l fuel j acc
        | some key =>
          let flds := fieldScan (chunk.length + 1) chunk []
          extractGo l fuel j (acc ++ [⟨ty, key, flds, ⟨chunk⟩⟩])

/-- All records extracted from a text (the loop before the error check). -/
def extractEntries (text : String) : List BibEntry :=
  extractGo text.data (text.data.length + 1) 0 []

/-- `parseBibtexEntries`: the extraction loop followed by the
no-entries-found check (`entries.length === 0 && src.trim().length > 0`). -/
def parseBibtexEntries (text : String) : Except String (List BibEntry) :=
  let entries := extractEntries text
  if entries.isEmpty && (jsTrim text).length > 0 then
    .error "No BibTeX entries found. Did you forget the \x27@\x27 symbol?"
  else .ok entries

/-! ## SpanHighlighter (compileRegexForBlockField, collectSpans) -/

/-- Stable descending sort of the confirmed-hit terms by length
(`[...hits].sort((a, b) => b.length - a.length)`). -/
def lenInsert (x : String) : List String → List String
  | [] => [x]
  | y :: ys => if y.length ≥ x.length then y :: lenInsert x ys else x :: y :: ys

/-- Stable sort, longest first. -/
def sortByLenDesc (l : List String) : List String :=
  l.foldl (fun acc x => lenInsert x acc) []

/-- `compileRegexForBlockField`: a single alternation over the confirmed-hit
terms, longest first.  A `SyntaxError` thrown by the `RegExp` constructor is
modelled as `none` (the source does not guard this call). -/
def compileRegexForBlockField (blockCfg : Option Block) (hits : List String)
    (ci : Bool) : Option CompiledRe :=
  match blockCfg with
  | none => none
  | some b =>
    if hits = [] then none
    else
      let src := "(?:" ++
        String.intercalate "|"
          ((sortByLenDesc hits).map (fun h => toSmartWordPattern h b.isRegex)) ++ ")"
      (parseRegex src).map (fun a => ⟨a, ci⟩)

/-- One highlight span over a field text (`end` is a Lean keyword, so the
source's `end` field is called `stop` here). -/
structure Span where
  start : Nat
  stop : Nat
  block : String
  text : String
deriving DecidableEq, Repr

/-- Stable insertion step for the span comparator
`a.start - b.start || (b.end - b.start) - (a.end - a.start)`:
ascending start, ties broken toward the longer span. -/
def spanInsert (x : Span) : List Span → List Span
  | [] => [x]
  | y :: ys =>
    if y.start < x.start ||
        (y.start = x.start && (y.stop - y.start) ≥ (x.stop - x.start)) then
      y :: spanInsert x ys
    else x :: y :: ys

/-- Stable sort of spans under that comparator. -/
def spanSort (l : List Span) : List Span :=
  l.foldl (fun acc x => spanInsert x acc) []

/-- Greedy non-overlap selection: a span is kept only when its start is at
or past the previously kept span's end (`lastEnd` starts at -1). -/
def pickSpans : List Span → Int → List Span
  | [], _ => []
  | s :: rest, lastEnd =>
    if (s.start : Int) ≥ lastEnd then s :: pickSpans rest (s.stop : Int)
    else pickSpans rest lastEnd

/-- `collectSpans`: run every block's pattern globally over the text, merge,
sort, and greedily select non-overlapping spans. -/
def collectSpans (text : String) (arr : List (String × CompiledRe)) : List Span :=
  let tl := text.data
  let spans := arr.flatMap (fun p =>
    (execAll tl p.2).map (fun m =>
      ⟨m.1, m.2, p.1, ⟨(tl.drop m.1).take (m.2 - m.1)⟩⟩))
  pickSpans (spanSort spans) (-1)

/-! ## QueryStringParser (parseBooleanQuery) -/

/-- `input.replace(/\s+/g, " ")`: collapse each whitespace run to one space. -/
def squashGo (prevWs : Bool) : List Char → List Char
  | [] => []
  | c :: rest =>
    if jsSpace c then
      if prevWs then squashGo true rest else ' ' :: squashGo true rest
    else c :: squashGo false rest

/-- Whitespace normalisation of the pasted expression (collapse then trim). -/
def normalizeQ (s : String) : String := ⟨trimChars (squashGo false s.data)⟩

/-- `pushGroup`: append the trimmed buffer when non-empty. -/
def pushGroupQ (acc : List (List Char)) (buf : List Char) : List (List Char) :=
  let t := trimChars buf
  if t = [] then acc else acc ++ [t]

/-- The top-level splitter on whole-word `AND` at parenthesis depth 0 and
outside quotes; `prev` is the previously consumed character (`s[i-1]`). -/
def splitAndGo : Nat → Option Char → Nat → Bool → Char → List Char →
    List (List Char) → List Char → List (List Char)
  | 0, _, _, _, _, buf, acc, _ => pushGroupQ acc buf
  | _ + 1, _, _, _, _, buf, acc, [] => pushGroupQ acc buf
  | fuel + 1, prev, depth, inQ, qc, buf, acc, c :: rest =>
    if !inQ && (c = '"' || c = '\x27') then
      splitAndGo fuel (some c) depth true c (buf ++ [c]) acc rest
    else if inQ then
      if c = qc then splitAndGo fuel (some c) depth false qc (buf ++ [c]) acc rest
      else splitAndGo fuel (some c) depth true qc (buf ++ [c]) acc rest
    else if c = '(' then
      splitAndGo fuel (some c) (depth + 1) inQ qc (buf ++ [c]) acc rest
    else if c = ')' then
      splitAndGo fuel (some c) (depth - 1) inQ qc (buf ++ [c]) acc rest
    else
      match rest with
      | c2 :: c3 :: rest2 =>
        if depth = 0 && c.toUpper = 'A' && c2.toUpper = 'N' && c3.toUpper = 'D' &&
            (prev = some ' ' || prev = some ')') &&
            (match rest2 with | [] => true | nc :: _ => nc = ' ' || nc = '(') then
          splitAndGo fuel (some c3) depth inQ qc [] (pushGroupQ acc buf) rest2
        else splitAndGo fuel (some c) depth inQ qc (buf ++ [c]) acc rest
      | _ => splitAndGo fuel (some c) depth inQ qc (buf ++ [c]) acc rest

/-- The intra-group splitter on whole-word `OR`, same depth/quote rules. -/
def splitOrGo : Nat → Option Char → Nat → Bool → Char → List Char →
    List (List Char) → List Char → List (List Char)
  | 0, _, _, _, _, buf, acc, _ => pushGroupQ acc buf
  | _ + 1, _, _, _, _, buf, acc, [] => pushGroupQ acc buf
  | fuel + 1, prev, depth, inQ, qc, buf, acc, c :: rest =>
    if !inQ && (c = '"' || c = '\x27') then
      splitOrGo fuel (some c) depth true c (buf ++ [c]) acc rest
    else if inQ then
      if c = qc then splitOrGo fuel (some c) depth false qc (buf ++ [c]) acc rest
      else splitOrGo fuel (some c) depth true qc (buf ++ [c]) acc rest
    else if c = '(' then
      splitOrGo fuel (some c) (depth + 1) inQ qc (buf ++ [c]) acc rest
    else if c = ')' then
      splitOrGo fuel (some c) (depth - 1) inQ qc (buf ++ [c]) acc rest
    else
      match rest with
      | c2 :: rest2 =>
        if depth = 0 && c.toUpper = 'O' && c2.toUpper = 'R' &&
            (prev = some ' ' || prev = some ')') &&
            (match rest2 with | [] => true | nc :: _ => nc = ' ' || nc = '(') then
          splitOrGo fuel (some c2) depth inQ qc [] (pushGroupQ acc buf) rest2
        else splitOrGo fuel (some c) depth inQ qc (buf ++ [c]) acc rest
      | _ => splitOrGo fuel (some c) depth inQ qc (buf ++ [c]) acc rest

/-- `t.replace(/^["\x27]|["\x27]$/g, "")`: one leading and one trailing
straight quote removed. -/
def stripOuterQuotes (t : List Char) : List Char :=
  let t1 := match t with
    | c :: rest => if c = '"' || c = '\x27' then rest else t
    | [] => t
  match t1.getLast? with
  | some c => if c = '"' || c = '\x27' then t1.dropLast else t1
  | none => t1

/-- Build one block from one top-level group: optional leading `NOT`,
optional fully enclosing parentheses, `OR`-separated terms, quote strip. -/
def mkBlockQ (gi : Nat) (g0 : List Char) : Block :=
  let g1 := trimChars g0
  let excl : Bool :=
    match g1 with
    | n :: o :: t :: c :: _ =>
      n.toUpper = 'N' && o.toUpper = 'O' && t.toUpper = 'T' && jsSpace c
    | _ => false
  let g2 := if excl then trimChars ((g1.drop 3).dropWhile jsSpace) else g1
  let g3 :=
    if g2.head? = some '(' && g2.getLast? = some ')' then
      trimChars ((g2.drop 1).dropLast)
    else g2
  let terms := splitOrGo (g3.length + 1) none 0 false ' ' [] [] g3
  let cleanTerms :=
    (terms.map (fun t => jsTrim ⟨stripOuterQuotes t⟩)).filter (fun t => t ≠ "")
  ⟨"", "Group " ++ toString (gi + 1), cleanTerms, false, excl⟩

/-- The block/operator model produced from a pasted expression. -/
structure ParsedQuery where
  blocks : List Block
  operators : List Operator
deriving DecidableEq, Repr

/-- `parseBooleanQuery`: `null` for a falsy input, else whitespace-normalise,
split on top-level `AND`, one block per group, `AND` between all groups. -/
def parseBooleanQuery (input : String) : Option ParsedQuery :=
  if input = "" then none
  else
    let s := normalizeQ input
    let groups := splitAndGo (s.data.length + 1) none 0 false ' ' [] [] s.data
    let blocks := groups.enum.map (fun p => mkBlockQ p.1 p.2)
    some ⟨blocks, List.replicate (groups.length - 1) .AND⟩

/-! ## The run loop: per-record classification and report -/

/-- Collapse whitespace runs (`.replace(/\s+/g, " ")`) on a string. -/
def squashWsStr (s : String) : String := ⟨squashGo false s.data⟩

/-- Remove braces (`.replace(/[\x7b\x7d]/g, "")`). -/
def removeBracesStr (s : String) : String :=
  ⟨s.data.filter (fun c => c ≠ '\x7b' && c ≠ '\x7d')⟩

/-- JavaScript `a || b || ... || ""` on strings: first non-empty. -/
def firstNonempty : List String → String
  | [] => ""
  | x :: xs => if x ≠ "" then x else firstNonempty xs

/-- `(e.title || "").toString()`. -/
def entryTitle (e : BibEntry) : String := ePropS e "title"

/-- `(e.abstract || e.abs || e.summary || "").toString()`. -/
def entryAbstract (e : BibEntry) : String :=
  firstNonempty [ePropS e "abstract", ePropS e "abs", ePropS e "summary"]

/-- `(e.keywords || e.keyword || "").toString()`. -/
def entryKeywords (e : BibEntry) : String :=
  firstNonempty [ePropS e "keywords", ePropS e "keyword"]

/-- The `hasAny` eligibility test: some selected field is non-empty. -/
def hasAnyE (cfg : QueryConfig) (e : BibEntry) : Bool :=
  (cfg.searchFields.title && entryTitle e ≠ "") ||
  (cfg.searchFields.abstract && entryAbstract e ≠ "") ||
  (cfg.searchFields.keywords && entryKeywords e ≠ "")

/-- The matcher applied to one entry's three field texts. -/
def entryEval (cfg : QueryConfig) (e : BibEntry) : EvalResult :=
  matchesByFields (compileBlocks cfg) cfg.operators
    ⟨entryTitle e, entryAbstract e, entryKeywords e⟩ cfg.searchFields

/-- Detail fragment for one field of one block's hit record. -/
def fieldDetail (label : String) : Option (List String) → List String
  | some l => if l ≠ [] then [label ++ ": " ++ String.intercalate " | " l] else []
  | none => []

/-- The flattened `block [Field: term | term; ...]` detail pieces. -/
def detailPieces (det : List (String × FieldHits)) : List String :=
  det.filterMap (fun p =>
    let parts := fieldDetail "Title" p.2.title ++ fieldDetail "Abstract" p.2.abstract ++
      fieldDetail "Keywords" p.2.keywords
    if parts ≠ [] then
      some (p.1 ++ " [" ++ String.intercalate "; " parts ++ "]")
    else none)

/-- Does the key start with `__` (such keys are dropped on export)? -/
def strStarts2 (k : String) : Bool :=
  match k.data with
  | '_' :: '_' :: _ => true
  | _ => false

/-- `buildBibEntry`: re-serialise one record, one `key = \x7bvalue\x7d` line
per field (the `entry_type`/`citekey`/`__`-prefixed slots are excluded). -/
def buildBibEntry (e : BibEntry) : String :=
  let flds := e.fields.filter
    (fun kv => kv.1 ≠ "entry_type" && kv.1 ≠ "citekey" && !strStarts2 kv.1)
  let ordered := String.intercalate ",\n"
    (flds.map (fun kv => "  " ++ kv.1 ++ " = \x7b" ++ kv.2 ++ "\x7d"))
  "@" ++ e.entryType ++ "\x7b" ++ e.citeKey ++ ",\n" ++ ordered ++ "\n\x7d"

/-- The shared display columns of a result row. -/
structure RowBase where
  citeKey : String
  title : String
  authors : String
  year : String
  venue : String
  url : String
deriving DecidableEq, Repr

/-- The `baseEntry` columns computed for one record. -/
def mkBase (e : BibEntry) : RowBase :=
  let doi := jsTrim (ePropS e "doi")
  ⟨ePropS e "citekey",
    jsTrim (removeBracesStr (squashWsStr (entryTitle e))),
    jsTrim (squashWsStr (ePropS e "author")),
    jsTrim (ePropS e "year"),
    jsTrim (squashWsStr (firstNonempty [ePropS e "booktitle", ePropS e "journal"])),
    jsTrim (firstNonempty [ePropS e "url",
      if doi ≠ "" then "https://doi.org/" ++ doi else ""])⟩

/-- A matched-bucket row. -/
structure RowM where
  base : RowBase
  titleRaw : String
  abstractRaw : String
  keywordsRaw : String
  matchedBlocks : String
  matchedTermsDetail : String
  mtm : List (String × FieldHits)
deriving DecidableEq, Repr

/-- A partially-matched-bucket row (`PartialBlocks` is `hitBlocks` here). -/
structure RowP where
  base : RowBase
  titleRaw : String
  abstractRaw : String
  keywordsRaw : String
  mtm : List (String × FieldHits)
  matchedTermsDetail : String
  hitBlocks : String
  missingBlocks : String
deriving DecidableEq, Repr

/-- An unmatched-bucket row. -/
structure RowU where
  base : RowBase
  titleRaw : String
  abstractRaw : String
  keywordsRaw : String
  mtm : List (String × FieldHits)
deriving DecidableEq, Repr

/-- Build the matched row for an entry. -/
def mkRowM (cfg : QueryConfig) (e : BibEntry) : RowM :=
  let r := entryEval cfg e
  ⟨mkBase e, entryTitle e, entryAbstract e, entryKeywords e,
    String.intercalate "; " r.matchedBlocks,
    String.intercalate "; " (detailPieces r.detailed), r.detailed⟩

/-- Build the partial row for an entry (present-vs-missing positive blocks;
note the source numbers default names by position in the filtered list). -/
def mkRowP (cfg : QueryConfig) (e : BibEntry) : RowP :=
  let r := entryEval cfg e
  let allPos := ((cfg.blocks.filter (fun b => !b.exclude)).enum).map
    (fun p => displayName p.2 p.1)
  let hit := alKeys r.detailed
  let missing := allPos.filter (fun n => !hit.contains n)
  ⟨mkBase e, entryTitle e, entryAbstract e, entryKeywords e, r.detailed,
    String.intercalate "; " (detailPieces r.detailed),
    String.intercalate "; " hit, String.intercalate "; " missing⟩

/-- Build the unmatched row for an entry. -/
def mkRowU (cfg : QueryConfig) (e : BibEntry) : RowU :=
  let r := entryEval cfg e
  ⟨mkBase e, entryTitle e, entryAbstract e, entryKeywords e, r.detailed⟩

/-- The classification loop over the parsed entries: eligibility counter and
the three buckets (plus the matched records re-serialised for export). -/
def runLoop (cfg : QueryConfig) :
    List BibEntry → Nat × List RowM × List RowP × List RowU × List String
  | [] => (0, [], [], [], [])
  | e :: es =>
    let acc := runLoop cfg es
    let hasAny := hasAnyE cfg e
    let r := entryEval cfg e
    let el := acc.1 + (if hasAny then 1 else 0)
    if r.ok && hasAny then
      (el, mkRowM cfg e :: acc.2.1, acc.2.2.1, acc.2.2.2.1,
        buildBibEntry e :: acc.2.2.2.2)
    else if hasAny && !r.detailed.isEmpty then
      (el, acc.2.1, mkRowP cfg e :: acc.2.2.1, acc.2.2.2.1, acc.2.2.2.2)
    else if hasAny then
      (el, acc.2.1, acc.2.2.1, mkRowU cfg e :: acc.2.2.2.1, acc.2.2.2.2)
    else
      (el, acc.2.1, acc.2.2.1, acc.2.2.2.1, acc.2.2.2.2)

/-! ## TermStatsAggregator (computeTermStats) -/

/-- Field selector for the aggregator. -/
inductive Fld where
  | title | abstract | keywords
deriving DecidableEq, Repr

/-- The iteration order `["title", "abstract", "keywords"]`. -/
def fldList : List Fld := [.title, .abstract, .keywords]

/-- Field projection of a hit record. -/
def fhGet (fh : FieldHits) : Fld → Option (List String)
  | .title => fh.title
  | .abstract => fh.abstract
  | .keywords => fh.keywords

/-- Per-term cell: document count and per-field occurrence counts. -/
structure TermCell where
  docCount : Nat
  fTitle : Nat
  fAbstract : Nat
  fKeywords : Nat
deriving DecidableEq, Repr

/-- The `\x7b docCount: 0, fields: \x7btitle: 0, ...\x7d \x7d` default. -/
def zeroCell : TermCell := ⟨0, 0, 0, 0⟩

/-- `blk.fields[f]++`. -/
def bumpF (c : TermCell) : Fld → TermCell
  | .title => {c with fTitle := c.fTitle + 1}
  | .abstract => {c with fAbstract := c.fAbstract + 1}
  | .keywords => {c with fKeywords := c.fKeywords + 1}

/-- Aggregator state: overall document counts, per-field occurrence counts
and the per-block per-term table. -/
structure StatsAcc where
  oDoc : List (String × Nat)
  oTitle : List (String × Nat)
  oAbstract : List (String × Nat)
  oKeywords : List (String × Nat)
  pb : List (String × List (String × TermCell))
deriving DecidableEq, Repr

/-- Field-count map projection. -/
def oFieldGet (st : StatsAcc) : Fld → List (String × Nat)
  | .title => st.oTitle
  | .abstract => st.oAbstract
  | .keywords => st.oKeywords

/-- Field-count map update. -/
def oFieldSet (st : StatsAcc) (f : Fld) (m : List (String × Nat)) : StatsAcc :=
  match f with
  | .title => {st with oTitle := m}
  | .abstract => {st with oAbstract := m}
  | .keywords => {st with oKeywords := m}

/-- Process one occurrence of `tm` in field `f` of block `bn` for the row
being aggregated; `seenO`/`seenB` are the per-row dedup sets. -/
def procTerm (bn : String) (f : Fld) (tm : String)
    (acc : StatsAcc × List String × List (String × List String)) :
    StatsAcc × List String × List (String × List String) :=
  let st := acc.1
  let seenO := acc.2.1
  let seenB := acc.2.2
  let inner := alGetD st.pb bn []
  let cell1 := bumpF (alGetD inner tm zeroCell) f
  let sb := alGetD seenB bn []
  let cell2 := if sb.contains tm then cell1
    else {cell1 with docCount := cell1.docCount + 1}
  let seenB' := if sb.contains tm then seenB else alSet seenB bn (sb ++ [tm])
  let st1 := {st with pb := alSet st.pb bn (alSet inner tm cell2)}
  let fm := oFieldGet st1 f
  let st2 := oFieldSet st1 f (alSet fm tm (alGetD fm tm 0 + 1))
  let st3 := if seenO.contains tm then st2
    else {st2 with oDoc := alSet st2.oDoc tm (alGetD st2.oDoc tm 0 + 1)}
  let seenO' := if seenO.contains tm then seenO else seenO ++ [tm]
  (st3, seenO', seenB')

/-- Process all terms of one field of one block-hit record. -/
def procFld (bn : String) (fh : FieldHits) (f : Fld)
    (acc : StatsAcc × List String × List (String × List String)) :
    StatsAcc × List String × List (String × List String) :=
  ((fhGet fh f).getD []).foldl (fun a tm => procTerm bn f tm a) acc

/-- Process one `(blockName, fields)` pair of a row's hit map. -/
def procEntryB (acc : StatsAcc × List String × List (String × List String))
    (p : String × FieldHits) :
    StatsAcc × List String × List (String × List String) :=
  let st1 := {acc.1 with pb := alEnsure acc.1.pb p.1 []}
  let seenB1 := alEnsure acc.2.2 p.1 []
  fldList.foldl (fun a f => procFld p.1 p.2 f a) (st1, acc.2.1, seenB1)

/-- Process one matched row (fresh per-row dedup sets). -/
def procRow (st : StatsAcc) (r : RowM) : StatsAcc :=
  (r.mtm.foldl procEntryB (st, [], [])).1

/-- The zero-count back-fill: every configured block and every non-empty
(trimmed) configured term gets a cell. -/
def ensureBlocks (cfg : QueryConfig) (st0 : StatsAcc) : StatsAcc :=
  cfg.blocks.enum.foldl (fun st p =>
    let name := displayName p.2 p.1
    let st1 := {st with pb := alEnsure st.pb name []}
    p.2.terms.foldl (fun st raw =>
      let term := jsTrim raw
      if term = "" then st
      else
        {st with pb := alSet st.pb name (alEnsure (alGetD st.pb name []) term zeroCell)})
      st1) st0

/-- Stable insertion for descending count order. -/
def cntInsert (x : String × Nat) : List (String × Nat) → List (String × Nat)
  | [] => [x]
  | y :: ys => if y.2 ≥ x.2 then y :: cntInsert x ys else x :: y :: ys

/-- Stable sort, larger counts first (`.sort((a, b) => b[1] - a[1])`). -/
def sortCountDesc (l : List (String × Nat)) : List (String × Nat) :=
  l.foldl (fun acc x => cntInsert x acc) []

/-- Stable insertion for descending document-count order on cells. -/
def cellInsert (x : String × TermCell) :
    List (String × TermCell) → List (String × TermCell)
  | [] => [x]
  | y :: ys => if y.2.docCount ≥ x.2.docCount then y :: cellInsert x ys else x :: y :: ys

/-- Stable sort of a block's term cells, larger document counts first. -/
def sortCellDesc (l : List (String × TermCell)) : List (String × TermCell) :=
  l.foldl (fun acc x => cellInsert x acc) []

/-- The aggregator output. -/
structure TermStats where
  totalMatchedStudies : Nat
  overallTop : List (String × Nat)
  topByBlock : List (String × List (String × TermCell))
  perBlock : List (String × List (String × TermCell))
  oTitle : List (String × Nat)
  oAbstract : List (String × Nat)
  oKeywords : List (String × Nat)
deriving DecidableEq, Repr

/-- The empty aggregator state. -/
def emptyAcc : StatsAcc := ⟨[], [], [], [], []⟩

/-- `computeTermStats` over the matched rows under configuration `cfg`. -/
def computeTermStats (cfg : QueryConfig) (rows : List RowM) : TermStats :=
  let st := ensureBlocks cfg (rows.foldl procRow emptyAcc)
  ⟨rows.length, sortCountDesc st.oDoc,
    st.pb.map (fun p => (p.1, sortCellDesc p.2)), st.pb,
    st.oTitle, st.oAbstract, st.oKeywords⟩

/-- The run report. -/
structure RunReport where
  total : Nat
  eligible : Nat
  matched : Nat
  midCount : Nat
  unmatched : Nat
deriving DecidableEq, Repr

/-- The whole run output (the source's `partial` bucket is `midRows`). -/
structure RunOutput where
  matchedRows : List RowM
  midRows : List RowP
  unmatchedRows : List RowU
  report : RunReport
  termStats : TermStats
  matchedBib : String
deriving DecidableEq, Repr

/-- Assemble the run output over already-parsed entries. -/
def runOnEntries (cfg : QueryConfig) (entries : List BibEntry) : RunOutput :=
  let acc := runLoop cfg entries
  ⟨acc.2.1, acc.2.2.1, acc.2.2.2.1,
    ⟨entries.length, acc.1, acc.2.1.length, acc.2.2.1.length, acc.2.2.2.1.length⟩,
    computeTermStats cfg acc.2.1,
    String.intercalate "\n\n" acc.2.2.2.2⟩

/-- The `run` handler: parse, then classify (a parse failure aborts). -/
def run (cfg : QueryConfig) (bib : String) : Except String RunOutput :=
  (parseBibtexEntries bib).map (runOnEntries cfg)

/-! ## Specification-side definitions used by the theorems -/

/-- The selection masking the matcher applies before testing
(a deselected field is treated as the empty string). -/
def maskTexts (fields : FieldTexts) (selected : SearchFields) : FieldTexts :=
  ⟨if selected.title then fields.title else "",
    if selected.abstract then fields.abstract else "",
    if selected.keywords then fields.keywords else ""⟩

/-- The boolean contribution of one compiled block: fired, negated when the
block is excluded (NOT semantics applied at the single-block level). -/
def contrib (tx : FieldTexts) (c : CompiledBlock) : Bool :=
  if c.block.exclude then !(firedHits (blockHit c tx)) else firedHits (blockHit c tx)

/-- The strictly left-associative fold of the specification: seed with the
first contribution, then combine left to right with `operators[i-1]`;
stops when either list runs out. -/
def specFold : Bool → List Operator → List Bool → Bool
  | acc, [], _ => acc
  | acc, _ :: _, [] => acc
  | acc, op :: ops, c :: cs => specFold (applyOp op acc c) ops cs

/-- The whole-query fold over the compiled blocks (vacuously true when no
block survives compilation). -/
def foldOverBlocks (compiled : List CompiledBlock) (ops : List Operator)
    (tx : FieldTexts) : Bool :=
  match compiled.map (contrib tx) with
  | [] => true
  | c :: cs => specFold c ops cs

/-- Classification predicate for the Matched bucket (`ok && hasAny`). -/
def pMatched (cfg : QueryConfig) (e : BibEntry) : Bool :=
  (entryEval cfg e).ok && hasAnyE cfg e

/-- Classification predicate for the Partial bucket (second branch). -/
def pMid (cfg : QueryConfig) (e : BibEntry) : Bool :=
  !((entryEval cfg e).ok && hasAnyE cfg e) &&
    (hasAnyE cfg e && !(entryEval cfg e).detailed.isEmpty)

/-- Classification predicate for the Unmatched bucket (third branch). -/
def pUnmatched (cfg : QueryConfig) (e : BibEntry) : Bool :=
  !((entryEval cfg e).ok && hasAnyE cfg e) &&
    !(hasAnyE cfg e && !(entryEval cfg e).detailed.isEmpty) && hasAnyE cfg e

/-- Does term `tm` occur in one block's hit record? -/
def tmIn (tm : String) (fh : FieldHits) : Bool :=
  fldList.any (fun f => ((fhGet fh f).getD []).contains tm)

/-- Does term `tm` occur anywhere in a row's hit map? -/
def tmInMtm (tm : String) (mtm : List (String × FieldHits)) : Bool :=
  mtm.any (fun p => tmIn tm p.2)

/-! ### Concrete instances used by witnesses and counterexamples -/

/-- Three-block configuration realising the firing pattern (true, false,
true) with operators (OR, AND) on the field texts below. -/
def cfgABC : QueryConfig :=
  ⟨[⟨"", "A", ["alpha"], false, false⟩,
    ⟨"", "B", ["beta"], false, false⟩,
    ⟨"", "C", ["gamma"], false, false⟩],
   [.OR, .AND], true, ⟨true, true, true⟩⟩

/-- Field texts on which block A and block C fire but block B does not. -/
def ftABC : FieldTexts := ⟨"alpha gamma", "", ""⟩

/-- All three fields selected. -/
def selAll : SearchFields := ⟨true, true, true⟩

/-- A configuration whose blocks have only empty terms. -/
def cfgEmptyTerms : QueryConfig :=
  ⟨[⟨"", "X", ["", "  "], false, false⟩, ⟨"", "Y", [], false, false⟩],
   [.AND], true, selAll⟩

/-- A configuration with an excluded middle block. -/
def cfgNot : QueryConfig :=
  ⟨[⟨"", "A", ["alpha"], false, false⟩,
    ⟨"", "N", ["gamma"], false, true⟩,
    ⟨"", "C", ["delta"], false, false⟩],
   [.AND, .OR], true, selAll⟩

/-- Field texts on which all three blocks of `cfgNot` fire. -/
def ftNot : FieldTexts := ⟨"alpha gamma delta", "", ""⟩

/-- Configuration with a single block holding one padded term, used to
exhibit the trimmed-key back-fill of the aggregator. -/
def cfgPadTerm : QueryConfig :=
  ⟨[⟨"", "B", [" x"], false, false⟩], [], true, selAll⟩

/-- A matched row whose hit map mentions the term `x` twice (two fields)
and the term `y` once. -/
def rowXY : RowM :=
  ⟨⟨"k", "", "", "", "", ""⟩, "", "", "", "", "",
    [("B", ⟨some ["x", "y"], some ["x"], none⟩)]⟩

/-- All terms of one block-hit record in field-iteration order. -/
def termsOfFh (fh : FieldHits) : List String :=
  (fhGet fh .title).getD [] ++ (fhGet fh .abstract).getD [] ++ (fhGet fh .keywords).getD []

/-- All terms occurring in a hit map. -/
def termsOfMtm (mtm : List (String × FieldHits)) : List String :=
  mtm.flatMap (fun p => termsOfFh p.2)

/-- Does the aggregator's per-block table hold an entry for `term` under
block `name`? -/
def pbHasB (pb : List (String × List (String × TermCell))) (name term : String) : Bool :=
  match alGet pb name with
  | some inner => (alGet inner term).isSome
  | none => false

/-- Effect specification of one aggregator step `g` touching the terms `L`:
the overall document count of `tm` grows by one exactly when `tm` was not
yet seen in this row and occurs in `L`; the seen set grows by `L`; and
key-uniqueness of the overall map is preserved. -/
def StepSpec (g : StatsAcc × List String × List (String × List String) →
    StatsAcc × List String × List (String × List String)) (L : List String) : Prop :=
  ∀ (acc : StatsAcc × List String × List (String × List String)) (tm : String),
    (alGetD (g acc).1.oDoc tm 0 =
      alGetD acc.1.oDoc tm 0 +
        (if tm ∈ acc.2.1 then 0 else if tm ∈ L then 1 else 0)) ∧
    (∀ x, x ∈ (g acc).2.1 ↔ (x ∈ acc.2.1 ∨ x ∈ L)) ∧
    ((alKeys acc.1.oDoc).Nodup → (alKeys (g acc).1.oDoc).Nodup)

/-- The per-block table effect of one back-fill term step of `ensureBlocks`. -/
def ensureTermStep (name : String) (pb : List (String × List (String × TermCell)))
    (raw : String) : List (String × List (String × TermCell)) :=
  let term := jsTrim raw
  if term = "" then pb
  else alSet pb name (alEnsure (alGetD pb name []) term zeroCell)

/-- The per-block table effect of one whole block of `ensureBlocks`. -/
def ensureBlockStep (pb : List (String × List (String × TermCell)))
    (p : Nat × Block) : List (String × List (String × TermCell)) :=
  let name := displayName p.2 p.1
  p.2.terms.foldl (ensureTermStep name) (alEnsure pb name [])

/-! ## Association-list lemmas -/

theorem alKeys_nil {α : Type} : alKeys ([] : List (String × α)) = [] := rfl

theorem alKeys_cons {α : Type} (p : String × α) (m : List (String × α)) :
    alKeys (p :: m) = p.1 :: alKeys m := rfl

theorem alKeys_append {α : Type} (m m' : List (String × α)) :
    alKeys (m ++ m') = alKeys m ++ alKeys m' := List.map_append _ _ _

theorem alGet_alSet_self {α : Type} (m : List (String × α)) (k : String) (v : α) :
    alGet (alSet m k v) k = some v := by
  induction m with
  | nil => simp [alGet, alSet]
  | cons p rest ih =>
    obtain ⟨a, b⟩ := p
    by_cases h : a = k
    · simp [alGet, alSet, h]
    · simp [alGet, alSet, h, ih]

theorem alGet_alSet_ne {α : Type} (m : List (String × α)) {k' k : String} (v : α)
    (h : k' ≠ k) : alGet (alSet m k' v) k = alGet m k := by
  induction m with
  | nil => simp [alGet, alSet, h]
  | cons p rest ih =>
    obtain ⟨a, b⟩ := p
    by_cases h2 : a = k'
    · have h3 : ¬a = k := by
        rw [h2]; exact h
      simp [alGet, alSet, h2, h, h3]
    · by_cases h3 : a = k
      · subst h3
        simp [alGet, alSet, h2]
      · simp [alGet, alSet, h2, h3, ih]

theorem alGet_none_iff {α : Type} (m : List (String × α)) (k : String) :
    alGet m k = none ↔ k ∉ alKeys m := by
  induction m with
  | nil => simp [alGet, alKeys_nil]
  | cons p rest ih =>
    obtain ⟨a, b⟩ := p
    by_cases h : a = k
    · subst h
      simp [alGet, alKeys_cons]
    · have h' : ¬k = a := fun hh => h hh.symm
      rw [show alGet ((a, b) :: rest) k = if a = k then some b else alGet rest k from rfl,
        if_neg h, alKeys_cons, ih]
      simp [List.mem_cons, h']

theorem alSet_append_of_none {α : Type} (m : List (String × α)) (k : String)
    (v : α) (h : alGet m k = none) : alSet m k v = m ++ [(k, v)] := by
  induction m with
  | nil => simp [alSet]
  | cons p rest ih =>
    obtain ⟨a, b⟩ := p
    by_cases h2 : a = k
    · rw [show alGet ((a, b) :: rest) k = if a = k then some b else alGet rest k from rfl,
        if_pos h2] at h
      exact absurd h (by simp)
    · rw [show alGet ((a, b) :: rest) k = if a = k then some b else alGet rest k from rfl,
        if_neg h2] at h
      rw [show alSet ((a, b) :: rest) k v =
          if a = k then (k, v) :: rest else (a, b) :: alSet rest k v from rfl,
        if_neg h2, ih h, List.cons_append]

theorem alGet_some_mem {α : Type} {m : List (String × α)} {k : String} {v : α}
    (h : alGet m k = some v) : (k, v) ∈ m := by
  induction m with
  | nil => simp [alGet] at h
  | cons p rest ih =>
    obtain ⟨a, b⟩ := p
    by_cases h2 : a = k
    · subst h2
      simp [alGet] at h
      subst h
      exact List.mem_cons_self _ _
    · simp [alGet, h2] at h
      exact List.mem_cons_of_mem _ (ih h)

theorem mem_alKeys_of_mem {α : Type} {m : List (String × α)} {k : String} {v : α}
    (h : (k, v) ∈ m) : k ∈ alKeys m :=
  List.mem_map_of_mem (·.1) h

theorem mem_alGet_of_nodup {α : Type} {m : List (String × α)} {k : String} {v : α}
    (nd : (alKeys m).Nodup) (h : (k, v) ∈ m) : alGet m k = some v := by
  induction m with
  | nil => simp at h
  | cons p rest ih =>
    obtain ⟨a, b⟩ := p
    rw [alKeys_cons, List.nodup_cons] at nd
    rcases List.mem_cons.mp h with h1 | h1
    · cases h1
      simp [alGet]
    · have hkne : ¬a = k := by
        intro he
        exact nd.1 (he ▸ mem_alKeys_of_mem h1)
      simp [alGet, hkne]
      exact ih nd.2 h1

theorem alKeys_perm_of_perm {α : Type} {l l' : List (String × α)} (h : l.Perm l') :
    (alKeys l).Perm (alKeys l') := h.map _

theorem alGet_of_perm {α : Type} {l l' : List (String × α)} (h : l.Perm l')
    (nd : (alKeys l).Nodup) (k : String) : alGet l k = alGet l' k := by
  have nd' : (alKeys l').Nodup := (alKeys_perm_of_perm h).nodup_iff.mp nd
  cases hv : alGet l k with
  | some v =>
    exact (mem_alGet_of_nodup nd' (h.mem_iff.mp (alGet_some_mem hv))).symm
  | none =>
    have hk : k ∉ alKeys l := (alGet_none_iff _ _).mp hv
    have hk' : k ∉ alKeys l' := fun hm => hk ((alKeys_perm_of_perm h).mem_iff.mpr hm)
    exact ((alGet_none_iff _ _).mpr hk').symm

theorem mem_alKeys_alSet {α : Type} {m : List (String × α)} {k x : String} {v : α}
    (h : x ∈ alKeys (alSet m k v)) : x ∈ alKeys m ∨ x = k := by
  induction m with
  | nil =>
    simp [alSet, alKeys_cons, alKeys_nil] at h
    exact Or.inr h
  | cons p rest ih =>
    obtain ⟨a, b⟩ := p
    have hstep : alSet ((a, b) :: rest) k v =
        if a = k then (k, v) :: rest else (a, b) :: alSet rest k v := rfl
    by_cases h2 : a = k
    · rw [hstep, if_pos h2, alKeys_cons] at h
      rcases List.mem_cons.mp h with h1 | h1
      · exact Or.inr h1
      · exact Or.inl (List.mem_cons_of_mem _ h1)
    · rw [hstep, if_neg h2, alKeys_cons] at h
      rcases List.mem_cons.mp h with h1 | h1
      · exact Or.inl (h1 ▸ List.mem_cons_self _ _)
      · rcases ih h1 with h3 | h3
        · exact Or.inl (List.mem_cons_of_mem _ h3)
        · exact Or.inr h3

theorem alKeys_alSet_nodup {α : Type} (m : List (String × α)) (k : String) (v : α)
    (nd : (alKeys m).Nodup) : (alKeys (alSet m k v)).Nodup := by
  induction m with
  | nil => simp [alSet, alKeys_cons, alKeys_nil]
  | cons p rest ih =>
    obtain ⟨a, b⟩ := p
    rw [alKeys_cons, List.nodup_cons] at nd
    have hstep : alSet ((a, b) :: rest) k v =
        if a = k then (k, v) :: rest else (a, b) :: alSet rest k v := rfl
    by_cases h : a = k
    · subst h
      rw [hstep, if_pos rfl, alKeys_cons, List.nodup_cons]
      exact nd
    · rw [hstep, if_neg h, alKeys_cons, List.nodup_cons]
      refine ⟨fun hm => ?_, ih nd.2⟩
      rcases mem_alKeys_alSet hm with h3 | h3
      · exact nd.1 h3
      · exact h h3

/-! ## Evaluator fold lemmas -/

theorem evalLoop_ok_eq (tx : FieldTexts) :
    ∀ (ops : List Operator) (cs : List CompiledBlock) (val : Bool)
      (mbs : List String) (det : List (String × FieldHits)),
    (evalLoop tx ops cs val mbs det).ok = specFold val ops (cs.map (contrib tx)) := by
  intro ops
  induction ops with
  | nil =>
    intro cs val mbs det
    cases cs <;> simp [evalLoop, specFold]
  | cons op ops ih =>
    intro cs val mbs det
    cases cs with
    | nil => simp [evalLoop, specFold]
    | cons c cs' =>
      simp only [evalLoop, List.map_cons, specFold]
      rw [ih]
      rfl

theorem matchesByFields_ok (compiled : List CompiledBlock) (ops : List Operator)
    (fields : FieldTexts) (sel : SearchFields) :
    (matchesByFields compiled ops fields sel).ok =
      foldOverBlocks compiled ops (maskTexts fields sel) := by
  cases compiled with
  | nil => simp [matchesByFields, foldOverBlocks]
  | cons c0 rest =>
    simp only [matchesByFields, foldOverBlocks, List.map_cons]
    rw [evalLoop_ok_eq]
    rfl

theorem compileBlocks_eq_nil (cfg : QueryConfig)
    (h : ∀ b ∈ cfg.blocks, b.terms.filter (fun t => (jsTrim t).length > 0) = []) :
    compileBlocks cfg = [] := by
  simp only [compileBlocks]
  rw [List.filterMap_eq_nil_iff]
  intro p hp
  have hb : p.2 ∈ cfg.blocks := by
    have := List.mem_enum_iff_getElem?.mp hp
    exact List.getElem?_mem this
  simp [h p.2 hb]

/-! ## Claim theorems: C1 and C4 -/

/-- C1: the evaluator's boolean fold is strictly left-associative with no
operator precedence: the result equals the left-to-right fold of the blocks'
contributions (negated for excluded blocks) under the recorded operators,
and the firing pattern (true, false, true) under (OR, AND) yields
((true OR false) AND true). -/
theorem claim_C1_left_assoc_fold :
    (∀ (t : String) (cfg : QueryConfig) (fields : FieldTexts) (sel : SearchFields),
        (evaluateQueryOnText t cfg fields sel).ok =
          foldOverBlocks (compileBlocks cfg) cfg.operators (maskTexts fields sel)) ∧
    (evaluateQueryOnText "" cfgABC ftABC selAll).ok = ((true || false) && true) := by
  constructor
  · intro t cfg fields sel
    exact matchesByFields_ok (compileBlocks cfg) cfg.operators fields sel
  · decide

/-- C4: a query whose blocks all have zero non-empty terms (including a
query with no blocks) evaluates to ok = true with empty matchedBlockNames
and empty hitMap for every record. -/
theorem claim_C4_vacuous_match (t : String) (cfg : QueryConfig)
    (fields : FieldTexts) (sel : SearchFields)
    (h : ∀ b ∈ cfg.blocks, b.terms.filter (fun tm => (jsTrim tm).length > 0) = []) :
    evaluateQueryOnText t cfg fields sel = ⟨true, [], []⟩ := by
  unfold evaluateQueryOnText
  rw [compileBlocks_eq_nil cfg h]
  rfl

/-- Witness for C4 at a concrete empty-term configuration. -/
theorem claim_C4_witness :
    evaluateQueryOnText "" cfgEmptyTerms ⟨"anything", "", ""⟩ selAll = ⟨true, [], []⟩ :=
  claim_C4_vacuous_match "" cfgEmptyTerms ⟨"anything", "", ""⟩ selAll (by decide)


/-! ## EntryParser lemmas and claim C3 -/

theorem string_pos_iff_ne (s : String) : 0 < s.length ↔ s ≠ "" := by
  obtain ⟨l⟩ := s
  rw [show (String.mk l).length = l.length from rfl, List.length_pos]
  constructor
  · intro h he
    exact h (congrArg String.data he)
  · intro h hl
    apply h
    rw [hl]

theorem extractEntries_no_at (t : String) (h : ∀ c ∈ t.data, c ≠ '@') :
    extractEntries t = [] := by
  have hidx : indexOfFrom t.data '@' 0 = none := by
    simp [indexOfFrom]
    exact h
  simp [extractEntries, extractGo, hidx]

/-- C3 counterexample: the all-whitespace text is non-empty, nothing is
extracted from it, and yet the parser returns an empty record list instead
of raising (the source tests `src.trim().length > 0`, not non-emptiness). -/
theorem claim_C3_counterexample :
    (" " : String) ≠ "" ∧ extractEntries " " = [] ∧
      parseBibtexEntries " " = .ok [] := by
  refine ⟨by decide, by rfl, by rfl⟩

/-- C3 (amended): EntryParser is total; it returns an empty sequence without
raising on the empty text; it raises iff the *trimmed* text is non-empty and
zero chunks were extracted (so it returns the extracted records otherwise,
tolerating malformed chunks); and a text with no `@` at all yields zero
extracted chunks. -/
theorem claim_C3_parse_failure :
    parseBibtexEntries "" = .ok [] ∧
    (∀ t : String, (parseBibtexEntries t).isOk = false ↔
        (extractEntries t = [] ∧ jsTrim t ≠ "")) ∧
    (∀ t : String, (parseBibtexEntries t).isOk = true →
        parseBibtexEntries t = .ok (extractEntries t)) ∧
    (∀ t : String, (∀ c ∈ t.data, c ≠ '@') → extractEntries t = []) := by
  refine ⟨by rfl, fun t => ?_, fun t => ?_, fun t h => extractEntries_no_at t h⟩
  · unfold parseBibtexEntries
    dsimp only
    split
    next hcond =>
      simp only [Bool.and_eq_true, List.isEmpty_iff, decide_eq_true_eq] at hcond
      simp only [Except.isOk, Except.toBool]
      constructor
      · intro _
        exact ⟨hcond.1, (string_pos_iff_ne _).mp hcond.2⟩
      · intro _
        trivial
    next hcond =>
      simp only [Except.isOk, Except.toBool]
      constructor
      · intro hfalse
        exact absurd hfalse (by simp)
      · rintro ⟨h1, h2⟩
        exact absurd (by
          simp only [Bool.and_eq_true, List.isEmpty_iff, decide_eq_true_eq]
          exact ⟨h1, (string_pos_iff_ne _).mpr h2⟩) hcond
  · unfold parseBibtexEntries
    intro hok
    dsimp only at hok ⊢
    split
    next hc =>
      rw [if_pos hc] at hok
      simp [Except.isOk, Except.toBool] at hok
    next hc => rfl

/-- Witness for C3's no-`@` clause at a concrete noise text. -/
theorem claim_C3_witness :
    (∀ c ∈ ("plain textual noise" : String).data, c ≠ '@') ∧
      extractEntries "plain textual noise" = [] :=
  ⟨by decide, claim_C3_parse_failure.2.2.2 "plain textual noise" (by decide)⟩

/-! ## QueryStringParser lemmas and claim C8 -/

theorem squashGo_all_space {l : List Char} (h : ∀ c ∈ l, jsSpace c = true) :
    ∀ b, ∀ c ∈ squashGo b l, c = ' ' := by
  induction l with
  | nil => intro b c hc; simp [squashGo] at hc
  | cons a rest ih =>
    intro b c hc
    have ha : jsSpace a = true := h a (List.mem_cons_self _ _)
    have hr : ∀ c ∈ rest, jsSpace c = true := fun c hc => h c (List.mem_cons_of_mem _ hc)
    by_cases hb : b
    · rw [squashGo, ha, if_pos rfl] at hc
      · exact ih hr true c (by simpa [hb] using hc)
    · rw [squashGo, ha] at hc
      simp only [hb, if_neg] at hc
      rcases List.mem_cons.mp (by simpa using hc) with h1 | h1
      · exact h1
      · exact ih hr true c h1

theorem trimChars_all_space {l : List Char} (h : ∀ c ∈ l, jsSpace c = true) :
    trimChars l = [] := by
  have h1 : l.dropWhile jsSpace = [] := List.dropWhile_eq_nil_iff.mpr h
  simp [trimChars, h1]

theorem normalizeQ_all_space (s : String) (h : ∀ c ∈ s.data, jsSpace c = true) :
    normalizeQ s = "" := by
  unfold normalizeQ
  rw [trimChars_all_space (fun c hc => by
    rw [squashGo_all_space h false c hc]
    decide)]

/-- C8 counterexample: an all-whitespace (non-empty) expression does not
yield "no result": the parser returns an empty block model instead of null
(the source only checks JavaScript falsiness, which for strings is `""`). -/
theorem claim_C8_counterexample :
    parseBooleanQuery " " ≠ none ∧ parseBooleanQuery " " = some ⟨[], []⟩ := by
  constructor
  · decide
  · decide

/-- C8 (amended): QueryStringParser is total and returns null exactly for
the empty expression; an all-whitespace non-empty expression returns the
empty block model `\x7bblocks: [], operators: []\x7d` (which the caller
then applies), never an exception. -/
theorem claim_C8_empty_input :
    parseBooleanQuery "" = none ∧
    (∀ s : String, s ≠ "" → (∀ c ∈ s.data, jsSpace c = true) →
      parseBooleanQuery s = some ⟨[], []⟩) := by
  constructor
  · rfl
  · intro s hs hws
    unfold parseBooleanQuery
    rw [if_neg hs, normalizeQ_all_space s hws]
    rfl

/-- Witness for C8 at the single-space expression. -/
theorem claim_C8_witness :
    (" " : String) ≠ "" ∧ parseBooleanQuery " " = some ⟨[], []⟩ :=
  ⟨by decide, claim_C8_empty_input.2 " " (by decide) (by decide)⟩

/-! ## PatternCompiler: claim C7 -/

/-- C7 counterexample: `*` is not in the probed metacharacter set and is
never escaped, so a regex-flagged `a*b` is not compiled verbatim, and a
literal `ho*me` keeps an unescaped `*`; trimming also precedes every rule
(` a.` compiles to `a.`, not to its verbatim text). -/
theorem claim_C7_counterexample :
    toSmartWordPattern "a*b" true = "\\ba*b\\b" ∧ "\\ba*b\\b" ≠ "a*b" ∧
    toSmartWordPattern "ho*me" false = "\\bho*me\\b" ∧
    "\\bho*me\\b" ≠ "\\bho\\*me\\b" ∧
    toSmartWordPattern " a." true = "a." := by
  refine ⟨by decide, by decide, by decide, by decide, by decide⟩

/-- C7 (amended): the rules apply to the whitespace-trimmed term; the
metacharacter probe covers `\ . ^ $ | ( ) [ ] ? + \x7b \x7d` but not `*`;
a regex-flagged term with a probed metacharacter is compiled verbatim
(trimmed); otherwise a trailing `*` is stripped and the escaped stem gets
`\b...[\w-]*`; otherwise the term is escaped (every metacharacter except
`*`) and word-bounded on both sides.  The stem rule makes a regex-flagged
`home*` hit both "homemade setup" and "home.". -/
theorem claim_C7_pattern_rules :
    (∀ (term : String) (flag : Bool),
        (flag = true → hasRegexMeta (jsTrim term) = true →
          toSmartWordPattern term flag = jsTrim term) ∧
        (¬(flag = true ∧ hasRegexMeta (jsTrim term) = true) →
          (jsTrim term).data.getLast? = some '*' →
          toSmartWordPattern term flag =
            "\\b" ++ escExceptStar ⟨(jsTrim term).data.dropLast⟩ ++ "[\\w-]*") ∧
        (¬(flag = true ∧ hasRegexMeta (jsTrim term) = true) →
          (jsTrim term).data.getLast? ≠ some '*' →
          toSmartWordPattern term flag =
            "\\b" ++ escExceptStar (jsTrim term) ++ "\\b")) ∧
    reTestStr (safeRegExp (toSmartWordPattern "home*" true) true) "homemade setup" = true ∧
    reTestStr (safeRegExp (toSmartWordPattern "home*" true) true) "home." = true := by
  refine ⟨fun term flag => ⟨?_, ?_, ?_⟩, by decide, by decide⟩
  · intro h1 h2
    simp [toSmartWordPattern, h1, h2]
  · intro h1 h2
    have hb : (flag && hasRegexMeta (jsTrim term)) = false := by
      cases hf : flag <;> cases hm : hasRegexMeta (jsTrim term) <;> simp_all
    simp [toSmartWordPattern, hb, h2]
  · intro h1 h2
    have hb : (flag && hasRegexMeta (jsTrim term)) = false := by
      cases hf : flag <;> cases hm : hasRegexMeta (jsTrim term) <;> simp_all
    simp [toSmartWordPattern, hb, h2]

/-- Witness for C7's stem rule at the concrete term `home*`. -/
theorem claim_C7_witness :
    toSmartWordPattern "home*" true = "\\bhome[\\w-]*" := by
  rw [(claim_C7_pattern_rules.1 "home*" true).2.1 (by decide) (by decide)]
  decide


/-! ## Run-loop lemmas and claim C2 -/

theorem runLoop_spec (cfg : QueryConfig) (entries : List BibEntry) :
    runLoop cfg entries =
      ((entries.filter (hasAnyE cfg)).length,
        (entries.filter (pMatched cfg)).map (mkRowM cfg),
        (entries.filter (pMid cfg)).map (mkRowP cfg),
        (entries.filter (pUnmatched cfg)).map (mkRowU cfg),
        (entries.filter (pMatched cfg)).map buildBibEntry) := by
  induction entries with
  | nil => rfl
  | cons e es ih =>
    simp only [runLoop, ih]
    by_cases hok : (entryEval cfg e).ok = true <;>
      by_cases hany : hasAnyE cfg e = true <;>
        by_cases hdet : (entryEval cfg e).detailed.isEmpty = true <;>
          simp [pMatched, pMid, pUnmatched, hok, hany, hdet, List.filter_cons]

theorem partition_count (cfg : QueryConfig) (entries : List BibEntry) :
    (entries.filter (hasAnyE cfg)).length =
      (entries.filter (pMatched cfg)).length + (entries.filter (pMid cfg)).length +
        (entries.filter (pUnmatched cfg)).length := by
  induction entries with
  | nil => rfl
  | cons e es ih =>
    by_cases hok : (entryEval cfg e).ok = true <;>
      by_cases hany : hasAnyE cfg e = true <;>
        by_cases hdet : (entryEval cfg e).detailed.isEmpty = true <;>
          simp [pMatched, pMid, pUnmatched, hok, hany, hdet, List.filter_cons] <;>
            omega

/-- C2: for every run each eligible record (at least one non-empty selected
field) lands in exactly one of Matched, Partial (here the `mid` bucket),
Unmatched — Matched iff the fold is true, else Partial iff the hit map is
non-empty, else Unmatched — while ineligible records appear in no bucket but
still count toward the report's total, so
matched + partial + unmatched = eligible ≤ total. -/
theorem claim_C2_partition (cfg : QueryConfig) (entries : List BibEntry) :
    (runOnEntries cfg entries).report.total = entries.length ∧
    (runOnEntries cfg entries).report.eligible =
      (entries.filter (hasAnyE cfg)).length ∧
    (runOnEntries cfg entries).matchedRows =
      (entries.filter (pMatched cfg)).map (mkRowM cfg) ∧
    (runOnEntries cfg entries).midRows =
      (entries.filter (pMid cfg)).map (mkRowP cfg) ∧
    (runOnEntries cfg entries).unmatchedRows =
      (entries.filter (pUnmatched cfg)).map (mkRowU cfg) ∧
    (runOnEntries cfg entries).report.eligible =
      (runOnEntries cfg entries).report.matched +
        (runOnEntries cfg entries).report.midCount +
        (runOnEntries cfg entries).report.unmatched ∧
    (runOnEntries cfg entries).report.eligible ≤
      (runOnEntries cfg entries).report.total := by
  have h := runLoop_spec cfg entries
  refine ⟨rfl, ?_, ?_, ?_, ?_, ?_, ?_⟩
  · simp [runOnEntries, h]
  · simp [runOnEntries, h]
  · simp [runOnEntries, h]
  · simp [runOnEntries, h]
  · simp [runOnEntries, h, partition_count cfg entries]
  · simp only [runOnEntries, h]
    exact List.length_filter_le _ _


/-! ## SpanHighlighter lemmas and claim C6 -/

theorem starLoop_ge (f : Nat → List Nat) (lz : Bool)
    (hf : ∀ j k, k ∈ f j → j ≤ k) :
    ∀ (fuel i e : Nat), e ∈ starLoop f lz fuel i → i ≤ e := by
  intro fuel
  induction fuel with
  | zero =>
    intro i e he
    simp [starLoop] at he
    omega
  | succ fuel ih =>
    intro i e he
    have hnxt : ∀ e', e' ∈ ((f i).filter (fun j => i < j)).flatMap (starLoop f lz fuel) →
        i ≤ e' := by
      intro e' he'
      rcases List.mem_flatMap.mp he' with ⟨j, hj, hj2⟩
      have h1 : i < j := by simpa using (List.mem_filter.mp hj).2
      have h2 := ih j e' hj2
      omega
    simp only [starLoop] at he
    by_cases hlz : lz
    · rw [if_pos hlz] at he
      rcases List.mem_cons.mp he with h1 | h1
      · omega
      · exact hnxt e h1
    · rw [if_neg hlz] at he
      rcases List.mem_append.mp he with h1 | h1
      · exact hnxt e h1
      · simp at h1
        omega

theorem mEnds_ge (l : List Char) (ci : Bool) :
    ∀ (r : RAst) (i e : Nat), e ∈ mEnds l ci r i → i ≤ e := by
  intro r
  induction r with
  | eps =>
    intro i e h
    simp [mEnds] at h
    omega
  | ch c =>
    intro i e h
    cases hcell : l[i]? <;> simp [mEnds, hcell] at h <;> omega
  | cls neg items =>
    intro i e h
    cases hcell : l[i]? with
    | none => simp [mEnds, hcell] at h
    | some c' =>
      by_cases hm : clsMatch ci neg items c' = true <;> simp [mEnds, hcell, hm] at h <;> omega
  | dot =>
    intro i e h
    cases hcell : l[i]? with
    | none => simp [mEnds, hcell] at h
    | some c' =>
      by_cases hm : lineTerm c' = true <;> simp [mEnds, hcell, hm] at h <;> omega
  | wordB =>
    intro i e h
    by_cases hb : isBoundary l i = true <;> simp [mEnds, hb] at h <;> omega
  | nonWordB =>
    intro i e h
    by_cases hb : isBoundary l i = true <;> simp [mEnds, hb] at h <;> omega
  | lineStart =>
    intro i e h
    by_cases hb : i = 0 <;> simp [mEnds, hb] at h <;> omega
  | lineEnd =>
    intro i e h
    by_cases hb : i = l.length <;> simp [mEnds, hb] at h <;> omega
  | seq a b iha ihb =>
    intro i e h
    simp only [mEnds] at h
    rcases List.mem_flatMap.mp h with ⟨m, hm, hm2⟩
    have := iha i m hm
    have := ihb m e hm2
    omega
  | alt a b iha ihb =>
    intro i e h
    simp only [mEnds] at h
    rcases List.mem_append.mp h with h1 | h1
    · exact iha i e h1
    · exact ihb i e h1
  | star lz a iha =>
    intro i e h
    simp only [mEnds] at h
    exact starLoop_ge _ lz (fun j k hk => iha j k hk) _ i e h
  | plus lz a iha =>
    intro i e h
    simp only [mEnds] at h
    rcases List.mem_flatMap.mp h with ⟨m, hm, hm2⟩
    have h1 := iha i m hm
    have h2 := starLoop_ge _ lz (fun j k hk => iha j k hk) _ m e hm2
    omega
  | opt lz a iha =>
    intro i e h
    simp only [mEnds] at h
    by_cases hlz : lz
    · rw [if_pos hlz] at h
      rcases List.mem_cons.mp h with h1 | h1
      · omega
      · exact iha i e h1
    · rw [if_neg hlz] at h
      rcases List.mem_append.mp h with h1 | h1
      · exact iha i e h1
      · simp at h1
        omega

theorem firstMatchFrom_le {l : List Char} {re : CompiledRe} {p i e : Nat}
    (h : firstMatchFrom l re p = some (i, e)) : i ≤ e := by
  rcases List.exists_of_findSome?_eq_some h with ⟨a, _, ha⟩
  cases hh : (mEnds l re.ci re.ast a).head? with
  | none => simp [hh] at ha
  | some e' =>
    simp [hh] at ha
    obtain ⟨rfl, rfl⟩ := ha
    exact mEnds_ge l re.ci re.ast a e' (List.mem_of_mem_head? hh)

theorem execLoop_le (l : List Char) (re : CompiledRe) :
    ∀ (fuel p : Nat) (m : Nat × Nat), m ∈ execLoop l re fuel p → m.1 ≤ m.2 := by
  intro fuel
  induction fuel with
  | zero => intro p m hm; simp [execLoop] at hm
  | succ fuel ih =>
    intro p m hm
    simp only [execLoop] at hm
    cases hfm : firstMatchFrom l re p with
    | none => simp [hfm] at hm
    | some ie =>
      obtain ⟨i, e⟩ := ie
      rw [hfm] at hm
      rcases List.mem_cons.mp hm with h1 | h1
      · subst h1
        exact firstMatchFrom_le hfm
      · exact ih _ m h1

theorem spanInsert_perm (x : Span) (l : List Span) :
    (spanInsert x l).Perm (x :: l) := by
  induction l with
  | nil => simp [spanInsert]
  | cons y ys ih =>
    by_cases h : y.start < x.start ||
        (y.start = x.start && decide ((y.stop - y.start) ≥ (x.stop - x.start)))
    · rw [spanInsert, if_pos h]
      exact (ih.cons y).trans (List.Perm.swap x y ys)
    · rw [spanInsert, if_neg h]

theorem spanSortAux_perm (l : List Span) :
    ∀ acc : List Span, (l.foldl (fun a x => spanInsert x a) acc).Perm (acc ++ l) := by
  induction l with
  | nil => intro acc; simp
  | cons x xs ih =>
    intro acc
    have h1 := ih (spanInsert x acc)
    have h2 := (spanInsert_perm x acc).append_right xs
    have h3 : ((x :: acc) ++ xs).Perm (acc ++ x :: xs) := by
      simp only [List.cons_append]
      exact List.perm_middle.symm
    simpa using h1.trans (h2.trans h3)

theorem spanSort_perm (l : List Span) : (spanSort l).Perm l := by
  simpa using spanSortAux_perm l []

theorem pickSpans_subset : ∀ (l : List Span) (le : Int) (s : Span),
    s ∈ pickSpans l le → s ∈ l := by
  intro l
  induction l with
  | nil => intro le s hs; simp [pickSpans] at hs
  | cons t l' ih =>
    intro le s hs
    simp only [pickSpans] at hs
    by_cases hc : ((t.start : Int) ≥ le)
    · rw [if_pos hc] at hs
      rcases List.mem_cons.mp hs with h1 | h1
      · exact h1 ▸ List.mem_cons_self _ _
      · exact List.mem_cons_of_mem _ (ih _ s h1)
    · rw [if_neg hc] at hs
      exact List.mem_cons_of_mem _ (ih _ s hs)

theorem pickSpans_start_ge : ∀ (l : List Span) (le : Int),
    (∀ s ∈ l, s.start ≤ s.stop) → ∀ s ∈ pickSpans l le, le ≤ (s.start : Int) := by
  intro l
  induction l with
  | nil => intro le _ s hs; simp [pickSpans] at hs
  | cons t l' ih =>
    intro le hss s hs
    simp only [pickSpans] at hs
    by_cases hc : ((t.start : Int) ≥ le)
    · rw [if_pos hc] at hs
      rcases List.mem_cons.mp hs with h1 | h1
      · subst h1; exact hc
      · have h2 := ih (t.stop : Int) (fun u hu => hss u (List.mem_cons_of_mem _ hu)) s h1
        have h3 : t.start ≤ t.stop := hss t (List.mem_cons_self _ _)
        have h4 : (le : Int) ≤ (t.start : Int) := hc
        have h5 : ((t.start : Int)) ≤ (t.stop : Int) := by exact_mod_cast h3
        omega
    · rw [if_neg hc] at hs
      exact ih le (fun u hu => hss u (List.mem_cons_of_mem _ hu)) s hs

theorem pickSpans_pairwise : ∀ (l : List Span) (le : Int),
    (∀ s ∈ l, s.start ≤ s.stop) →
    List.Pairwise (fun a b : Span => a.stop ≤ b.start ∧ a.start ≤ b.start)
      (pickSpans l le) := by
  intro l
  induction l with
  | nil => intro le _; simp [pickSpans]
  | cons t l' ih =>
    intro le hss
    simp only [pickSpans]
    by_cases hc : ((t.start : Int) ≥ le)
    · rw [if_pos hc]
      refine List.pairwise_cons.mpr ⟨?_, ih _ (fun u hu => hss u (List.mem_cons_of_mem _ hu))⟩
      intro s hs
      have h2 := pickSpans_start_ge l' (t.stop : Int)
        (fun u hu => hss u (List.mem_cons_of_mem _ hu)) s hs
      have h3 : t.start ≤ t.stop := hss t (List.mem_cons_self _ _)
      have h4 : t.stop ≤ s.start := by exact_mod_cast h2
      exact ⟨h4, by omega⟩
    · rw [if_neg hc]
      exact ih _ (fun u hu => hss u (List.mem_cons_of_mem _ hu))

/-- C6: the SpanHighlighter's selected span list is ordered and
non-overlapping: for any field text and any per-block pattern collection,
`collectSpans` output is sorted by ascending start and any two selected
spans satisfy end1 ≤ start2 (in list order), hence never overlap; the
greedy selection keeps a span only when its start is at or past the
previously kept span's end. -/
theorem claim_C6_nonoverlap (text : String) (arr : List (String × CompiledRe)) :
    List.Pairwise (fun a b : Span => a.stop ≤ b.start) (collectSpans text arr) ∧
    List.Pairwise (fun a b : Span => a.start ≤ b.start) (collectSpans text arr) := by
  have hss : ∀ s ∈ spanSort (arr.flatMap (fun p =>
      (execAll text.data p.2).map (fun m =>
        ⟨m.1, m.2, p.1, ⟨(text.data.drop m.1).take (m.2 - m.1)⟩⟩))), s.start ≤ s.stop := by
    intro s hs
    have hs2 := (spanSort_perm _).mem_iff.mp hs
    rcases List.mem_flatMap.mp hs2 with ⟨pp, _, hmap⟩
    rcases List.mem_map.mp hmap with ⟨m, hm, rfl⟩
    exact execLoop_le text.data pp.2 _ 0 m hm
  have hpair := pickSpans_pairwise _ (-1) hss
  constructor
  · exact List.Pairwise.imp (fun h => h.1) hpair
  · exact List.Pairwise.imp (fun h => h.2) hpair


/-! ## Evaluator hit-map lemmas and claims C5, C10 -/

theorem alGet_append {α : Type} (m m' : List (String × α)) (k : String) :
    alGet (m ++ m') k =
      (match alGet m k with
       | some v => some v
       | none => alGet m' k) := by
  induction m with
  | nil => simp [alGet]
  | cons p rest ih =>
    obtain ⟨a, b⟩ := p
    by_cases h : a = k <;> simp [alGet, h, ih]

theorem evalLoop_step (tx : FieldTexts) (op : Operator) (ops : List Operator)
    (c : CompiledBlock) (cs' : List CompiledBlock) (val : Bool)
    (mbs : List String) (det : List (String × FieldHits)) :
    evalLoop tx (op :: ops) (c :: cs') val mbs det =
      evalLoop tx ops cs'
        (applyOp op val
          (if c.block.exclude then !(firedHits (blockHit c tx))
           else firedHits (blockHit c tx)))
        (if !c.block.exclude && firedHits (blockHit c tx) then mbs ++ [c.name] else mbs)
        (if firedHits (blockHit c tx) && !c.block.exclude then
          alSet det c.name (blockHit c tx)
         else det) := rfl

theorem evalLoop_detailed_none (tx : FieldTexts) (x : String) :
    ∀ (ops : List Operator) (cs : List CompiledBlock) (val : Bool)
      (mbs : List String) (det : List (String × FieldHits)),
    alGet det x = none →
    (∀ c ∈ cs, c.block.exclude = false → c.name ≠ x) →
    alGet (evalLoop tx ops cs val mbs det).detailed x = none := by
  intro ops
  induction ops with
  | nil =>
    intro cs val mbs det h1 _
    cases cs <;> simpa [evalLoop] using h1
  | cons op ops ih =>
    intro cs val mbs det h1 h2
    cases cs with
    | nil => simpa [evalLoop] using h1
    | cons c cs' =>
      rw [evalLoop_step]
      apply ih
      · by_cases hex : c.block.exclude
        · simp [hex, h1]
        · by_cases hhit : firedHits (blockHit c tx)
          · have hne : c.name ≠ x := h2 c (List.mem_cons_self _ _) (by simpa using hex)
            simp only [hhit, hex]
            simpa [alGet_alSet_ne det (blockHit c tx) hne] using h1
          · simp [hhit, h1]
      · exact fun c' hc' => h2 c' (List.mem_cons_of_mem _ hc')

theorem evalLoop_mbs_notmem (tx : FieldTexts) (x : String) :
    ∀ (ops : List Operator) (cs : List CompiledBlock) (val : Bool)
      (mbs : List String) (det : List (String × FieldHits)),
    x ∉ mbs →
    (∀ c ∈ cs, c.block.exclude = false → c.name ≠ x) →
    x ∉ (evalLoop tx ops cs val mbs det).matchedBlocks := by
  intro ops
  induction ops with
  | nil =>
    intro cs val mbs det h1 _
    cases cs <;> simpa [evalLoop] using h1
  | cons op ops ih =>
    intro cs val mbs det h1 h2
    cases cs with
    | nil => simpa [evalLoop] using h1
    | cons c cs' =>
      rw [evalLoop_step]
      apply ih
      · by_cases hex : c.block.exclude
        · simp [hex, h1]
        · by_cases hhit : firedHits (blockHit c tx)
          · have hne : c.name ≠ x := h2 c (List.mem_cons_self _ _) (by simpa using hex)
            rw [if_pos (by simp [hex, hhit])]
            intro hmem
            rcases List.mem_append.mp hmem with hm | hm
            · exact h1 hm
            · simp at hm
              exact hne hm.symm
          · simp [hhit, h1]
      · exact fun c' hc' => h2 c' (List.mem_cons_of_mem _ hc')

theorem evalLoop_mbs_spec (tx : FieldTexts) :
    ∀ (cs : List CompiledBlock) (ops : List Operator) (val : Bool)
      (mbs : List String) (det : List (String × FieldHits)),
    cs.length ≤ ops.length →
    (evalLoop tx ops cs val mbs det).matchedBlocks =
      mbs ++ (cs.filter (fun c => !c.block.exclude && firedHits (blockHit c tx))).map
        (·.name) := by
  intro cs
  induction cs with
  | nil =>
    intro ops val mbs det _
    cases ops <;> simp [evalLoop]
  | cons c cs' ih =>
    intro ops val mbs det hlen
    cases ops with
    | nil => simp at hlen
    | cons op ops' =>
      rw [evalLoop_step, ih ops' _ _ _ (by simpa using hlen)]
      by_cases hp : (!c.block.exclude && firedHits (blockHit c tx)) = true
      · simp [List.filter_cons, hp]
      · simp [List.filter_cons, hp]

theorem evalLoop_det_spec (tx : FieldTexts) :
    ∀ (cs : List CompiledBlock) (ops : List Operator) (val : Bool)
      (mbs : List String) (det : List (String × FieldHits)),
    cs.length ≤ ops.length →
    (∀ c ∈ cs, c.block.exclude = false → alGet det c.name = none) →
    ((cs.map (·.name)).Nodup) →
    (evalLoop tx ops cs val mbs det).detailed =
      det ++ (cs.filter (fun c => !c.block.exclude && firedHits (blockHit c tx))).map
        (fun c => (c.name, blockHit c tx)) := by
  intro cs
  induction cs with
  | nil =>
    intro ops val mbs det _ _ _
    cases ops <;> simp [evalLoop]
  | cons c cs' ih =>
    intro ops val mbs det hlen hnone hnd
    cases ops with
    | nil => simp at hlen
    | cons op ops' =>
      rw [List.map_cons, List.nodup_cons] at hnd
      rw [evalLoop_step]
      by_cases hex : c.block.exclude
      · have hp : (!c.block.exclude && firedHits (blockHit c tx)) = false := by
          simp [hex]
        have hp2 : (firedHits (blockHit c tx) && !c.block.exclude) = false := by
          simp [hex]
        rw [if_neg (show ¬((firedHits (blockHit c tx) && !c.block.exclude) = true) by
            simp [hp2]),
          ih ops' _ _ _ (by simpa using hlen)
            (fun c' hc' hx => hnone c' (List.mem_cons_of_mem _ hc') hx) hnd.2]
        simp [List.filter_cons, hp]
      · by_cases hhit : firedHits (blockHit c tx)
        · have h0 : alGet det c.name = none :=
            hnone c (List.mem_cons_self _ _) (by simpa using hex)
          have hset : alSet det c.name (blockHit c tx) = det ++ [(c.name, blockHit c tx)] :=
            alSet_append_of_none det c.name _ h0
          have hnone' : ∀ c' ∈ cs', c'.block.exclude = false →
              alGet (det ++ [(c.name, blockHit c tx)]) c'.name = none := by
            intro c' hc' hx
            rw [alGet_append]
            have h1 := hnone c' (List.mem_cons_of_mem _ hc') hx
            have h2 : c'.name ≠ c.name := by
              intro he
              exact hnd.1 (he ▸ List.mem_map_of_mem (·.name) hc')
            rw [h1]
            have h3 : ¬c.name = c'.name := fun he => h2 he.symm
            simp [alGet, h3]
          rw [if_pos (show (firedHits (blockHit c tx) && !c.block.exclude) = true by
              simp [hex, hhit]), hset,
            ih ops' _ _ _ (by simpa using hlen) hnone' hnd.2]
          have hp : (!c.block.exclude && firedHits (blockHit c tx)) = true := by
            simp [hex, hhit]
          simp [List.filter_cons, hp, List.append_assoc]
        · rw [if_neg (show ¬((firedHits (blockHit c tx) && !c.block.exclude) = true) by
              simp [hhit]),
            ih ops' _ _ _ (by simpa using hlen)
              (fun c' hc' hx => hnone c' (List.mem_cons_of_mem _ hc') hx) hnd.2]
          have hp : (!c.block.exclude && firedHits (blockHit c tx)) = false := by
            simp [hhit]
          simp [List.filter_cons, hp]


theorem matchesByFields_mbs_spec (compiled : List CompiledBlock)
    (ops : List Operator) (fields : FieldTexts) (sel : SearchFields)
    (hlen : compiled.length ≤ ops.length + 1) :
    (matchesByFields compiled ops fields sel).matchedBlocks =
      (compiled.filter (fun c =>
        !c.block.exclude && firedHits (blockHit c (maskTexts fields sel)))).map
        (·.name) := by
  cases compiled with
  | nil => simp [matchesByFields]
  | cons c0 rest =>
    show (evalLoop (maskTexts fields sel) ops rest _ _ _).matchedBlocks = _
    rw [evalLoop_mbs_spec (maskTexts fields sel) rest ops _ _ _ (by simpa using hlen)]
    by_cases hp : (!c0.block.exclude &&
        firedHits (blockHit c0 (maskTexts fields sel))) = true
    · simp at hp
      simp only [maskTexts] at hp
      simp [List.filter_cons, maskTexts, hp.1, hp.2]
    · simp at hp
      have hcond : ¬(c0.block.exclude = false ∧
          firedHits (blockHit c0 (maskTexts fields sel)) = true) := by
        rintro ⟨h1, h2⟩
        rw [hp h1] at h2
        exact absurd h2 (by decide)
      simp only [maskTexts] at hcond
      simp [List.filter_cons, maskTexts, hcond]

theorem matchesByFields_det_spec (compiled : List CompiledBlock)
    (ops : List Operator) (fields : FieldTexts) (sel : SearchFields)
    (hlen : compiled.length ≤ ops.length + 1)
    (hnd : (compiled.map (·.name)).Nodup) :
    (matchesByFields compiled ops fields sel).detailed =
      (compiled.filter (fun c =>
        !c.block.exclude && firedHits (blockHit c (maskTexts fields sel)))).map
        (fun c => (c.name, blockHit c (maskTexts fields sel))) := by
  cases compiled with
  | nil => simp [matchesByFields]
  | cons c0 rest =>
    rw [List.map_cons, List.nodup_cons] at hnd
    show (evalLoop (maskTexts fields sel) ops rest _ _
      (if firedHits (blockHit c0 (maskTexts fields sel)) && !c0.block.exclude then
        alSet [] c0.name (blockHit c0 (maskTexts fields sel)) else [])).detailed = _
    by_cases hc0 : (firedHits (blockHit c0 (maskTexts fields sel)) &&
        !c0.block.exclude) = true
    · rw [if_pos hc0]
      have hstep : alSet ([] : List (String × FieldHits)) c0.name
          (blockHit c0 (maskTexts fields sel)) =
          [(c0.name, blockHit c0 (maskTexts fields sel))] := rfl
      rw [hstep, evalLoop_det_spec (maskTexts fields sel) rest ops _ _ _
        (by simpa using hlen) ?hnone hnd.2]
      case hnone =>
        intro c' hc' _
        have h2 : ¬c0.name = c'.name := by
          intro he
          exact hnd.1 (he ▸ List.mem_map_of_mem (·.name) hc')
        simp [alGet, h2]
      have hc0' := hc0
      simp at hc0'
      simp only [maskTexts] at hc0'
      simp [List.filter_cons, maskTexts, hc0'.1, hc0'.2]
    · rw [if_neg hc0]
      rw [evalLoop_det_spec (maskTexts fields sel) rest ops _ _ _
        (by simpa using hlen)
        (fun c' _ _ =>
          show alGet ([] : List (String × FieldHits)) c'.name = none from rfl)
        hnd.2]
      simp at hc0
      have hcond : ¬(c0.block.exclude = false ∧
          firedHits (blockHit c0 (maskTexts fields sel)) = true) := by
        rintro ⟨h1, h2⟩
        rw [hc0 h2] at h1
        exact absurd h1 (by decide)
      simp only [maskTexts] at hcond
      simp [List.filter_cons, maskTexts, hcond]

/-- C10 (implicit): hit-map completeness without short-circuiting.  Whenever
enough operators are present, the matcher's hitMap is exactly one entry per
non-excluded compiled block whose terms hit some selected non-empty field,
in block-configuration order, and matchedBlockNames is exactly those blocks'
names; the characterisation never mentions the operator list or the ok
value, so both outputs are independent of them. -/
theorem claim_C10_hitmap_completeness (cfg : QueryConfig) (ops : List Operator)
    (fields : FieldTexts) (sel : SearchFields)
    (hlen : (compileBlocks cfg).length ≤ ops.length + 1)
    (hnd : ((compileBlocks cfg).map (·.name)).Nodup) :
    (matchesByFields (compileBlocks cfg) ops fields sel).matchedBlocks =
      ((compileBlocks cfg).filter (fun c =>
        !c.block.exclude && firedHits (blockHit c (maskTexts fields sel)))).map
        (·.name) ∧
    (matchesByFields (compileBlocks cfg) ops fields sel).detailed =
      ((compileBlocks cfg).filter (fun c =>
        !c.block.exclude && firedHits (blockHit c (maskTexts fields sel)))).map
        (fun c => (c.name, blockHit c (maskTexts fields sel))) :=
  ⟨matchesByFields_mbs_spec _ ops fields sel hlen,
    matchesByFields_det_spec _ ops fields sel hlen hnd⟩

/-- Witness for C10 at a concrete configuration with an excluded block. -/
theorem claim_C10_witness :
    ((compileBlocks cfgNot).length ≤ cfgNot.operators.length + 1 ∧
      ((compileBlocks cfgNot).map (·.name)).Nodup) ∧
    (matchesByFields (compileBlocks cfgNot) cfgNot.operators ftNot selAll).matchedBlocks =
      ((compileBlocks cfgNot).filter (fun c =>
        !c.block.exclude && firedHits (blockHit c (maskTexts ftNot selAll)))).map
        (·.name) :=
  ⟨⟨by decide, by decide⟩,
    (claim_C10_hitmap_completeness cfgNot cfgNot.operators ftNot selAll
      (by decide) (by decide)).1⟩

/-- C5: NOT semantics — an excluded block contributes the negation of its
firing to the strictly left-associative fold (via `contrib` inside
`foldOverBlocks`), and its name never appears in the hitMap or in
matchedBlockNames, whether or not it fired (block names unique, per the
data-model invariant). -/
theorem claim_C5_not_semantics (t : String) (cfg : QueryConfig)
    (fields : FieldTexts) (sel : SearchFields) (c : CompiledBlock)
    (hnd : ((compileBlocks cfg).map (·.name)).Nodup)
    (hc : c ∈ compileBlocks cfg) (hex : c.block.exclude = true) :
    alGet (evaluateQueryOnText t cfg fields sel).detailed c.name = none ∧
    c.name ∉ (evaluateQueryOnText t cfg fields sel).matchedBlocks ∧
    (evaluateQueryOnText t cfg fields sel).ok =
      foldOverBlocks (compileBlocks cfg) cfg.operators (maskTexts fields sel) := by
  have hinj := List.inj_on_of_nodup_map hnd
  have hnames : ∀ c' ∈ compileBlocks cfg, c'.block.exclude = false → c'.name ≠ c.name := by
    intro c' hc' hx he
    have hce : c' = c := hinj hc' hc he
    rw [hce, hex] at hx
    exact absurd hx (by decide)
  refine ⟨?_, ?_, matchesByFields_ok (compileBlocks cfg) cfg.operators fields sel⟩
  · unfold evaluateQueryOnText
    cases hcomp : compileBlocks cfg with
    | nil => simp [hcomp] at hc
    | cons c0 rest =>
      show alGet (evalLoop (maskTexts fields sel) cfg.operators rest _ _
        (if firedHits (blockHit c0 (maskTexts fields sel)) && !c0.block.exclude then
          alSet [] c0.name (blockHit c0 (maskTexts fields sel)) else [])).detailed
          c.name = none
      apply evalLoop_detailed_none
      · by_cases hc0 : (firedHits (blockHit c0 (maskTexts fields sel)) &&
            !c0.block.exclude) = true
        · rw [if_pos hc0]
          have hc0' := hc0
          simp at hc0'
          have hne : ¬c0.name = c.name :=
            hnames c0 (by rw [hcomp]; exact List.mem_cons_self _ _) hc0'.2
          simp [alGet, alSet, hne]
        · rw [if_neg hc0]
          rfl
      · intro c' hc' hx
        exact hnames c' (by rw [hcomp]; exact List.mem_cons_of_mem _ hc') hx
  · unfold evaluateQueryOnText
    cases hcomp : compileBlocks cfg with
    | nil => simp [hcomp] at hc
    | cons c0 rest =>
      show c.name ∉ (evalLoop (maskTexts fields sel) cfg.operators rest _
        (if !c0.block.exclude && firedHits (blockHit c0 (maskTexts fields sel)) then
          [c0.name] else []) _).matchedBlocks
      apply evalLoop_mbs_notmem
      · by_cases hc0 : (!c0.block.exclude &&
            firedHits (blockHit c0 (maskTexts fields sel))) = true
        · rw [if_pos hc0]
          have hc0' := hc0
          simp at hc0'
          have hne : ¬c0.name = c.name :=
            hnames c0 (by rw [hcomp]; exact List.mem_cons_self _ _) hc0'.1
          have hne2 : ¬c.name = c0.name := fun he => hne he.symm
          simp [hne2]
        · rw [if_neg hc0]
          simp
      · intro c' hc' hx
        exact hnames c' (by rw [hcomp]; exact List.mem_cons_of_mem _ hc') hx

/-- Witness for C5 at the excluded block `N` of `cfgNot`, which fires on the
given texts yet appears nowhere in the outputs. -/
theorem claim_C5_witness :
    ((compileBlocks cfgNot).map (·.name)).Nodup ∧
    alGet (evaluateQueryOnText "" cfgNot ftNot selAll).detailed "N" = none ∧
    "N" ∉ (evaluateQueryOnText "" cfgNot ftNot selAll).matchedBlocks := by
  have h := claim_C5_not_semantics "" cfgNot ftNot selAll
    ⟨1, "N", ⟨"", "N", ["gamma"], false, true⟩, ["gamma"],
      [safeRegExp (toSmartWordPattern "gamma" false) true]⟩
    (by decide) (by decide) rfl
  exact ⟨by decide, h.1, h.2.1⟩


/-! ## TermStatsAggregator lemmas -/

theorem oFieldSet_oDoc (st : StatsAcc) (f : Fld) (m : List (String × Nat)) :
    (oFieldSet st f m).oDoc = st.oDoc := by
  cases f <;> rfl

theorem procTerm_oDoc_eq (bn : String) (f : Fld) (t : String) (st : StatsAcc)
    (seenO : List String) (seenB : List (String × List String)) :
    (procTerm bn f t (st, seenO, seenB)).1.oDoc =
      (if seenO.contains t then st.oDoc
       else alSet st.oDoc t (alGetD st.oDoc t 0 + 1)) := by
  simp only [procTerm]
  by_cases hc : seenO.contains t
  · have ht : t ∈ seenO := by simpa using hc
    simp [hc, ht, oFieldSet_oDoc]
  · have ht : t ∉ seenO := by simpa using hc
    simp [hc, ht, oFieldSet_oDoc]

theorem procTerm_seenO_eq (bn : String) (f : Fld) (t : String) (st : StatsAcc)
    (seenO : List String) (seenB : List (String × List String)) :
    (procTerm bn f t (st, seenO, seenB)).2.1 =
      (if seenO.contains t then seenO else seenO ++ [t]) := rfl

theorem procTerm_spec (bn : String) (f : Fld) (t : String) :
    StepSpec (procTerm bn f t) [t] := by
  intro acc tm
  obtain ⟨st, seenO, seenB⟩ := acc
  refine ⟨?_, ?_, ?_⟩
  · rw [procTerm_oDoc_eq]
    by_cases hc : seenO.contains t
    · have ht : t ∈ seenO := by simpa using hc
      rw [if_pos hc]
      by_cases hm : tm ∈ seenO
      · simp [hm]
      · have hne : ¬tm = t := by
          intro he
          exact hm (he ▸ ht)
        simp [hm, hne]
    · have ht : t ∉ seenO := by simpa using hc
      rw [if_neg hc]
      by_cases he : tm = t
      · subst he
        rw [show alGetD (alSet st.oDoc tm (alGetD st.oDoc tm 0 + 1)) tm 0 =
            alGetD st.oDoc tm 0 + 1 by
          simp [alGetD, alGet_alSet_self]]
        simp [ht]
      · rw [show alGetD (alSet st.oDoc t (alGetD st.oDoc t 0 + 1)) tm 0 =
            alGetD st.oDoc tm 0 by
          simp [alGetD, alGet_alSet_ne st.oDoc _ (fun hh => he hh.symm)]]
        by_cases hm : tm ∈ seenO <;> simp [hm, he]
  · intro x
    rw [procTerm_seenO_eq]
    by_cases hc : seenO.contains t
    · have ht : t ∈ seenO := by simpa using hc
      rw [if_pos hc]
      constructor
      · exact fun h => Or.inl h
      · rintro (h | h)
        · exact h
        · have hx : x = t := by simpa using h
          rw [hx]
          exact ht
    · rw [if_neg hc]
      simp [List.mem_append]
  · intro hnd
    rw [procTerm_oDoc_eq]
    by_cases hc : seenO.contains t
    · rw [if_pos hc]
      exact hnd
    · rw [if_neg hc]
      exact alKeys_alSet_nodup _ _ _ hnd

theorem StepSpec.comp {g1 g2 : StatsAcc × List String × List (String × List String) →
    StatsAcc × List String × List (String × List String)} {L1 L2 : List String}
    (h1 : StepSpec g1 L1) (h2 : StepSpec g2 L2) :
    StepSpec (fun acc => g2 (g1 acc)) (L1 ++ L2) := by
  intro acc tm
  obtain ⟨a1, b1, c1⟩ := h1 acc tm
  obtain ⟨a2, b2, c2⟩ := h2 (g1 acc) tm
  refine ⟨?_, ?_, fun hnd => c2 (c1 hnd)⟩
  · rw [a2, a1]
    have hb := b1 tm
    by_cases hs : tm ∈ acc.2.1 <;> by_cases hm1 : tm ∈ L1 <;> by_cases hm2 : tm ∈ L2 <;>
      simp [hs, hm1, hm2, hb] <;> omega
  · intro x
    rw [b2 x, b1 x, List.mem_append]
    tauto

theorem StepSpec_of_inert {g : StatsAcc × List String × List (String × List String) →
    StatsAcc × List String × List (String × List String)}
    (hdoc : ∀ acc, (g acc).1.oDoc = acc.1.oDoc)
    (hseen : ∀ acc, (g acc).2.1 = acc.2.1) :
    StepSpec g [] := by
  intro acc tm
  refine ⟨by simp [hdoc acc], fun x => by simp [hseen acc], fun hnd => by
    rw [hdoc acc]; exact hnd⟩

theorem procTerms_spec (bn : String) (f : Fld) :
    ∀ terms : List String,
      StepSpec (fun acc => terms.foldl (fun a t => procTerm bn f t a) acc) terms := by
  intro terms
  induction terms with
  | nil => exact StepSpec_of_inert (fun acc => rfl) (fun acc => rfl)
  | cons t ts ih =>
    have hcomp := StepSpec.comp (procTerm_spec bn f t) ih
    intro acc tm
    simpa [List.foldl_cons] using hcomp acc tm

theorem procFld_spec (bn : String) (fh : FieldHits) (f : Fld) :
    StepSpec (fun acc => procFld bn fh f acc) ((fhGet fh f).getD []) := by
  intro acc tm
  simpa [procFld] using procTerms_spec bn f ((fhGet fh f).getD []) acc tm

theorem procEntryB_spec (p : String × FieldHits) :
    StepSpec (fun acc => procEntryB acc p) (termsOfFh p.2) := by
  have hens : StepSpec (fun acc =>
      (({acc.1 with pb := alEnsure acc.1.pb p.1 []}, acc.2.1,
        alEnsure acc.2.2 p.1 []) :
        StatsAcc × List String × List (String × List String))) [] :=
    StepSpec_of_inert (fun acc => rfl) (fun acc => rfl)
  have h1 := procFld_spec p.1 p.2 .title
  have h2 := procFld_spec p.1 p.2 .abstract
  have h3 := procFld_spec p.1 p.2 .keywords
  have hcomp := StepSpec.comp hens (StepSpec.comp h1 (StepSpec.comp h2 h3))
  intro acc tm
  have := hcomp acc tm
  simpa [procEntryB, fldList, termsOfFh, List.foldl_cons] using this

theorem procMtm_spec : ∀ mtm : List (String × FieldHits),
    StepSpec (fun acc => mtm.foldl procEntryB acc) (termsOfMtm mtm) := by
  intro mtm
  induction mtm with
  | nil => exact StepSpec_of_inert (fun acc => rfl) (fun acc => rfl)
  | cons p ps ih =>
    have hcomp := StepSpec.comp (procEntryB_spec p) ih
    intro acc tm
    have := hcomp acc tm
    simpa [termsOfMtm, List.foldl_cons] using this

theorem tmInMtm_iff (tm : String) (mtm : List (String × FieldHits)) :
    tmInMtm tm mtm = true ↔ tm ∈ termsOfMtm mtm := by
  simp [tmInMtm, tmIn, termsOfMtm, termsOfFh, List.any_eq_true, List.mem_flatMap,
    fldList, List.mem_append]

theorem procRow_count (st : StatsAcc) (r : RowM) (tm : String) :
    alGetD (procRow st r).oDoc tm 0 =
      alGetD st.oDoc tm 0 + (if tmInMtm tm r.mtm then 1 else 0) := by
  obtain ⟨ha, _, _⟩ := procMtm_spec r.mtm (st, [], []) tm
  unfold procRow
  rw [ha]
  by_cases hm : tm ∈ termsOfMtm r.mtm
  · simp [hm, (tmInMtm_iff tm r.mtm).mpr hm]
  · have : tmInMtm tm r.mtm = false := by
      rcases Bool.eq_false_or_eq_true (tmInMtm tm r.mtm) with h | h
      · exact absurd ((tmInMtm_iff tm r.mtm).mp h) hm
      · exact h
    simp [hm, this]

theorem procRow_nodup (st : StatsAcc) (r : RowM)
    (hnd : (alKeys st.oDoc).Nodup) : (alKeys (procRow st r).oDoc).Nodup := by
  obtain ⟨_, _, hc⟩ := procMtm_spec r.mtm (st, [], []) ""
  exact hc hnd

theorem statsFold_count : ∀ (rows : List RowM) (st : StatsAcc) (tm : String),
    alGetD (rows.foldl procRow st).oDoc tm 0 =
      alGetD st.oDoc tm 0 + (rows.filter (fun r => tmInMtm tm r.mtm)).length := by
  intro rows
  induction rows with
  | nil => intro st tm; simp
  | cons r rs ih =>
    intro st tm
    rw [List.foldl_cons, ih, procRow_count]
    by_cases hm : tmInMtm tm r.mtm = true <;>
      simp [List.filter_cons, hm] <;> omega

theorem statsFold_nodup : ∀ (rows : List RowM) (st : StatsAcc),
    (alKeys st.oDoc).Nodup → (alKeys (rows.foldl procRow st).oDoc).Nodup := by
  intro rows
  induction rows with
  | nil => intro st h; simpa using h
  | cons r rs ih =>
    intro st h
    rw [List.foldl_cons]
    exact ih _ (procRow_nodup st r h)


theorem foldl_oDoc_const {β : Type} (f : StatsAcc → β → StatsAcc)
    (hf : ∀ st x, (f st x).oDoc = st.oDoc) :
    ∀ (l : List β) (st : StatsAcc), (l.foldl f st).oDoc = st.oDoc := by
  intro l
  induction l with
  | nil => intro st; rfl
  | cons x xs ih =>
    intro st
    rw [List.foldl_cons, ih, hf]

theorem ensureBlocks_oDoc (cfg : QueryConfig) (st : StatsAcc) :
    (ensureBlocks cfg st).oDoc = st.oDoc := by
  unfold ensureBlocks
  refine foldl_oDoc_const _ ?_ _ st
  intro st p
  dsimp only
  rw [foldl_oDoc_const]
  intro st x
  by_cases h : jsTrim x = "" <;> simp [h]

theorem foldl_pb_proj {β : Type} (f : StatsAcc → β → StatsAcc)
    (g : List (String × List (String × TermCell)) → β →
      List (String × List (String × TermCell)))
    (hf : ∀ st x, (f st x).pb = g st.pb x) :
    ∀ (l : List β) (st : StatsAcc), (l.foldl f st).pb = l.foldl g st.pb := by
  intro l
  induction l with
  | nil => intro st; rfl
  | cons x xs ih =>
    intro st
    rw [List.foldl_cons, ih, hf, List.foldl_cons]

theorem ensureBlocks_pb (cfg : QueryConfig) (st : StatsAcc) :
    (ensureBlocks cfg st).pb = cfg.blocks.enum.foldl ensureBlockStep st.pb := by
  unfold ensureBlocks
  refine foldl_pb_proj _ ensureBlockStep ?_ _ st
  intro st p
  dsimp only
  rw [show ensureBlockStep st.pb p =
      p.2.terms.foldl (ensureTermStep (displayName p.2 p.1)) (alEnsure st.pb (displayName p.2 p.1) []) from rfl]
  refine foldl_pb_proj _ _ ?_ _ _
  intro st x
  by_cases h : jsTrim x = "" <;> simp [ensureTermStep, h]

theorem cntInsert_perm (x : String × Nat) (l : List (String × Nat)) :
    (cntInsert x l).Perm (x :: l) := by
  induction l with
  | nil => simp [cntInsert]
  | cons y ys ih =>
    by_cases h : y.2 ≥ x.2
    · rw [cntInsert, if_pos h]
      exact (ih.cons y).trans (List.Perm.swap x y ys)
    · rw [cntInsert, if_neg h]

theorem sortCountDesc_perm (l : List (String × Nat)) : (sortCountDesc l).Perm l := by
  have haux : ∀ (m : List (String × Nat)) (acc : List (String × Nat)),
      (m.foldl (fun a x => cntInsert x a) acc).Perm (acc ++ m) := by
    intro m
    induction m with
    | nil => intro acc; simp
    | cons x xs ih =>
      intro acc
      have h1 := ih (cntInsert x acc)
      have h2 := (cntInsert_perm x acc).append_right xs
      have h3 : ((x :: acc) ++ xs).Perm (acc ++ x :: xs) := by
        simp only [List.cons_append]
        exact List.perm_middle.symm
      exact h1.trans (h2.trans h3)
  simpa using haux l []

theorem overallTop_getD (cfg : QueryConfig) (rows : List RowM) (tm : String) :
    alGetD (computeTermStats cfg rows).overallTop tm 0 =
      (rows.filter (fun r => tmInMtm tm r.mtm)).length := by
  have hfold :=
    statsFold_count rows emptyAcc tm
  have hnd : (alKeys (rows.foldl procRow emptyAcc).oDoc).Nodup :=
    statsFold_nodup rows emptyAcc (by simp [emptyAcc, alKeys_nil])
  show alGetD (sortCountDesc (ensureBlocks cfg (rows.foldl procRow emptyAcc)).oDoc) tm 0 = _
  rw [ensureBlocks_oDoc]
  have hperm := sortCountDesc_perm ((rows.foldl procRow emptyAcc).oDoc)
  have hnds : (alKeys (sortCountDesc ((rows.foldl procRow emptyAcc).oDoc))).Nodup :=
    (alKeys_perm_of_perm hperm).nodup_iff.mpr hnd
  unfold alGetD
  rw [alGet_of_perm hperm hnds tm]
  have hempty : alGetD emptyAcc.oDoc tm 0 = 0 := by simp [emptyAcc, alGetD, alGet]
  rw [show ((alGet ((rows.foldl procRow emptyAcc).oDoc) tm).getD 0) =
      alGetD ((rows.foldl procRow emptyAcc).oDoc) tm 0 from rfl, hfold, hempty]
  omega

theorem alGet_alEnsure_isSome_of {α : Type} (m : List (String × α)) (k : String)
    (d : α) (k' : String) (h : (alGet m k').isSome = true) :
    (alGet (alEnsure m k d) k').isSome = true := by
  unfold alEnsure
  by_cases hk : (alGet m k).isSome
  · rw [if_pos hk]
    exact h
  · rw [if_neg hk, alGet_append]
    cases hv : alGet m k' with
    | some v => simp
    | none => rw [hv] at h; simp at h

theorem alGet_alEnsure_self_isSome {α : Type} (m : List (String × α)) (k : String)
    (d : α) : (alGet (alEnsure m k d) k).isSome = true := by
  unfold alEnsure
  by_cases hk : (alGet m k).isSome
  · rw [if_pos hk]
    exact hk
  · rw [if_neg hk, alGet_append]
    cases hv : alGet m k with
    | some v => simp
    | none => simp [alGet]

theorem pbHas_mono_alEnsure (pb : List (String × List (String × TermCell)))
    (k n t : String) (h : pbHasB pb n t = true) :
    pbHasB (alEnsure pb k []) n t = true := by
  unfold pbHasB at h ⊢
  cases hv : alGet pb n with
  | none => rw [hv] at h; simp at h
  | some inner =>
    rw [hv] at h
    unfold alEnsure
    by_cases hk : (alGet pb k).isSome
    · rw [if_pos hk, hv]
      exact h
    · rw [if_neg hk, alGet_append, hv]
      exact h

theorem pbHas_mono_setEnsure (pb : List (String × List (String × TermCell)))
    (name t' n t : String) (h : pbHasB pb n t = true) :
    pbHasB (alSet pb name (alEnsure (alGetD pb name []) t' zeroCell)) n t = true := by
  unfold pbHasB at h ⊢
  by_cases hn : name = n
  · subst hn
    rw [alGet_alSet_self]
    cases hv : alGet pb name with
    | none => rw [hv] at h; simp at h
    | some inner =>
      rw [hv] at h
      rw [show alGetD pb name [] = inner by simp [alGetD, hv]]
      exact alGet_alEnsure_isSome_of inner t' zeroCell t h
  · rw [alGet_alSet_ne pb _ hn]
    exact h

theorem pbHas_establish (pb : List (String × List (String × TermCell)))
    (name t : String) :
    pbHasB (alSet pb name (alEnsure (alGetD pb name []) t zeroCell)) name t = true := by
  unfold pbHasB
  rw [alGet_alSet_self]
  exact alGet_alEnsure_self_isSome _ t zeroCell

theorem ensureTermStep_mono (name : String) (raw n t : String)
    (pb : List (String × List (String × TermCell)))
    (h : pbHasB pb n t = true) : pbHasB (ensureTermStep name pb raw) n t = true := by
  unfold ensureTermStep
  by_cases hr : jsTrim raw = ""
  · rw [if_pos hr]
    exact h
  · rw [if_neg hr]
    exact pbHas_mono_setEnsure pb name _ n t h

theorem ensureTermFold_mono (name n t : String) :
    ∀ (terms : List String) (pb : List (String × List (String × TermCell))),
    pbHasB pb n t = true →
    pbHasB (terms.foldl (ensureTermStep name) pb) n t = true := by
  intro terms
  induction terms with
  | nil => intro pb h; exact h
  | cons r rs ih =>
    intro pb h
    rw [List.foldl_cons]
    exact ih _ (ensureTermStep_mono name r n t pb h)

theorem ensureTermFold_establish (name : String) :
    ∀ (terms : List String) (pb : List (String × List (String × TermCell)))
      (raw : String), raw ∈ terms → jsTrim raw ≠ "" →
    pbHasB (terms.foldl (ensureTermStep name) pb) name (jsTrim raw) = true := by
  intro terms
  induction terms with
  | nil => intro pb raw h; simp at h
  | cons r rs ih =>
    intro pb raw hmem hne
    rw [List.foldl_cons]
    rcases List.mem_cons.mp hmem with h1 | h1
    · subst h1
      apply ensureTermFold_mono
      rw [show ensureTermStep name pb raw =
          alSet pb name (alEnsure (alGetD pb name []) (jsTrim raw) zeroCell) by
        unfold ensureTermStep
        rw [if_neg hne]]
      exact pbHas_establish pb name (jsTrim raw)
    · exact ih _ raw h1 hne

theorem ensureBlockStep_mono (p : Nat × Block) (n t : String)
    (pb : List (String × List (String × TermCell)))
    (h : pbHasB pb n t = true) : pbHasB (ensureBlockStep pb p) n t = true := by
  unfold ensureBlockStep
  exact ensureTermFold_mono _ n t _ _ (pbHas_mono_alEnsure pb _ n t h)

theorem ensureBlockFold_mono (n t : String) :
    ∀ (l : List (Nat × Block)) (pb : List (String × List (String × TermCell))),
    pbHasB pb n t = true → pbHasB (l.foldl ensureBlockStep pb) n t = true := by
  intro l
  induction l with
  | nil => intro pb h; exact h
  | cons q qs ih =>
    intro pb h
    rw [List.foldl_cons]
    exact ih _ (ensureBlockStep_mono q n t pb h)

theorem ensureBlockFold_establish :
    ∀ (l : List (Nat × Block)) (pb : List (String × List (String × TermCell)))
      (p : Nat × Block) (raw : String),
    p ∈ l → raw ∈ p.2.terms → jsTrim raw ≠ "" →
    pbHasB (l.foldl ensureBlockStep pb) (displayName p.2 p.1) (jsTrim raw) = true := by
  intro l
  induction l with
  | nil => intro pb p raw h; simp at h
  | cons q qs ih =>
    intro pb p raw hmem hterm hne
    rw [List.foldl_cons]
    rcases List.mem_cons.mp hmem with h1 | h1
    · subst h1
      apply ensureBlockFold_mono
      unfold ensureBlockStep
      exact ensureTermFold_establish _ _ _ raw hterm hne
    · exact ih _ p raw h1 hterm hne

/-- C9 counterexample: a configured term with surrounding whitespace
(non-empty as a string) does not itself appear in the block's per-term
breakdown — only its trimmed form is back-filled. -/
theorem claim_C9_counterexample :
    (" x" : String) ≠ "" ∧ (" x" ∈ ([" x"] : List String)) ∧
    pbHasB (computeTermStats cfgPadTerm []).perBlock "B" " x" = false ∧
    pbHasB (computeTermStats cfgPadTerm []).perBlock "B" "x" = true := by
  refine ⟨by decide, by decide, by decide, by decide⟩

/-- C9 (amended): TermStatsAggregator counts document frequency — for every
matched-row set, a term's overall count (looked up in `overallTop`) equals
the number of rows whose hit map mentions the term, once per row even if it
hit several fields or blocks of that row; and the *trimmed form* of every
non-blank configured term appears in that block's per-term breakdown even
with a zero count. -/
theorem claim_C9_doc_frequency :
    (∀ (cfg : QueryConfig) (rows : List RowM) (tm : String),
        alGetD (computeTermStats cfg rows).overallTop tm 0 =
          (rows.filter (fun r => tmInMtm tm r.mtm)).length) ∧
    (∀ (cfg : QueryConfig) (rows : List RowM) (idx : Nat) (b : Block) (raw : String),
        cfg.blocks[idx]? = some b → raw ∈ b.terms → jsTrim raw ≠ "" →
        pbHasB (computeTermStats cfg rows).perBlock (displayName b idx)
          (jsTrim raw) = true) := by
  constructor
  · exact overallTop_getD
  · intro cfg rows idx b raw hidx hterm hne
    show pbHasB (ensureBlocks cfg (rows.foldl procRow emptyAcc)).pb _ _ = true
    rw [ensureBlocks_pb]
    exact ensureBlockFold_establish cfg.blocks.enum _ (idx, b) raw
      (List.mem_enum_iff_getElem?.mpr hidx) hterm hne

/-- Witness for C9's back-fill clause at the padded term of `cfgPadTerm`. -/
theorem claim_C9_witness :
    (cfgPadTerm.blocks[0]? = some ⟨"", "B", [" x"], false, false⟩ ∧
      (" x" ∈ ([" x"] : List String)) ∧ jsTrim " x" ≠ "") ∧
    pbHasB (computeTermStats cfgPadTerm []).perBlock
      (displayName ⟨"", "B", [" x"], false, false⟩ 0) (jsTrim " x") = true :=
  ⟨⟨by decide, by decide, by decide⟩,
    claim_C9_doc_frequency.2 cfgPadTerm [] 0 ⟨"", "B", [" x"], false, false⟩ " x"
      (by decide) (by decide) (by decide)⟩


end LitSearch
